import Mathlib

/-! THttpRequest: message framing and request decoding, and the connection pool.

A shallow embedding of `src/thttprequest.cpp` (class `THttpRequest` of the
TreeFrog framework) together with the Qt container operations the file calls.

Conventions of the embedding.

* `QByteArray` and `QString` are both lists of characters (`Bytes`).  The
  implicit conversion `QString(const QByteArray &)` is `Collaborators.toQString`
  (it stops at the first 0 byte and decodes the rest with the 8-bit decoder of
  the Qt version, a parameter), `QString::toLatin1` is `Qt.toLatin1`, and
  `QString::fromLatin1` of a value that is only tested for an ASCII prefix is
  left out.
* `QVariantMap` (`QMap<QString, QVariant>`) is the list of its entries in
  iteration order: ascending key, and for equal keys the most recently inserted
  entry first.  A `QVariant` holding a string is that string, the invalid
  `QVariant()` is the empty string (what `toString()` gives for it).
* C++ `int` is `Int`; the one addition that can leave the 32-bit range
  (`headidx + contlen`) is reduced with `toInt32`.
* Code that is not part of `thttprequest.cpp` and has no fixed behaviour here
  (`THttpRequestHeader`, `THttpUtility::fromUrlEncoding`, `TMultipartFormData`,
  `QJsonDocument::fromJson`, the 8-bit decoder of `QString`) is taken as a
  parameter, bundled in `Collaborators`.
* Member functions that mutate `d` take the request and return the new one.
-/

namespace Tf

/-- The enum `Tf::HttpMethod`. -/
inductive HttpMethod where
  | Invalid
  | Get
  | Head
  | Post
  | Options
  | Put
  | Delete
  | Trace
  | Patch
  deriving DecidableEq, Repr

end Tf

/-- Contents of a `QByteArray` or of a `QString`. -/
abbrev Bytes := List Char

namespace Qt

/-- The ASCII white space removed by `QByteArray::trimmed` and `QString::trimmed`:
tab, line feed, vertical tab, form feed, carriage return and space. -/
def isSpace (c : Char) : Bool :=
  c = ' ' || (9 ≤ c.toNat && c.toNat ≤ 13)

/-- The functions `QByteArray::trimmed` and `QString::trimmed`: white space removed
from both ends. -/
def trimmed (s : Bytes) : Bytes :=
  ((s.dropWhile isSpace).reverse.dropWhile isSpace).reverse

/-- The functions `QByteArray::toLower` and `QString::toLower` (on ASCII letters). -/
def toLower (s : Bytes) : Bytes :=
  s.map Char.toLower

/-- The call `str.startsWith(s, Qt::CaseInsensitive)` of `QString`. -/
def startsWithCI (str s : Bytes) : Bool :=
  (toLower s).isPrefixOf (toLower str)

/-- The functions `QByteArray::split(sep)` and `QString::split(sep)` (keeping empty parts): the
pieces between the occurrences of `sep`; a string without `sep`, the empty
string included, gives a one-element list. -/
def split (sep : Char) : Bytes → List Bytes
  | [] => [[]]
  | c :: cs =>
    if c = sep then [] :: split sep cs
    else
      match split sep cs with
      | [] => [[c]]
      | p :: ps => (c :: p) :: ps

/-- The call `QString::split(sep, QString::SkipEmptyParts)`. -/
def splitSkipEmptyParts (sep : Char) (s : Bytes) : List Bytes :=
  (split sep s).filter (fun p => !p.isEmpty)

/-- The functions `QList<QByteArray>::value(i)` and `QStringList::value(i)`: the element at `i`,
or a default-constructed (empty) one when `i` is out of bounds. -/
def value (l : List Bytes) (i : Nat) : Bytes :=
  l.getD i []

/-- The function `QByteArray::mid(pos, len)`, after `QContainerImplHelper::mid`; `len = -1`
is the default argument (everything from `pos`). -/
def mid (b : Bytes) (pos len : Int) : Bytes :=
  if pos > b.length then []
  else if pos < 0 then
    if len < 0 ∨ len + pos ≥ b.length then b
    else if len + pos ≤ 0 then []
    else b.take (len + pos).toNat
  else if len < 0 ∨ len > b.length - pos then b.drop pos.toNat
  else (b.drop pos.toNat).take len.toNat

/-- Forward search of `sep` in `b`: the first position, counted from `i`, at
which `sep` starts. -/
def findFrom (sep : Bytes) : Bytes → Nat → Option Nat
  | [], _ => none
  | c :: cs, i =>
    if sep.isPrefixOf (c :: cs) then some i else findFrom sep cs (i + 1)

/-- The function `QByteArray::indexOf(sep, from)` for a `sep` of at least two bytes: the
index of the first occurrence at or after `from`, or `-1`.  A negative `from`
counts from the end of the array; one that still points before the first byte
finds nothing. -/
def indexOf (b sep : Bytes) (frm : Int) : Int :=
  if frm > b.length ∨ sep.length + frm > b.length then -1
  else
    let start : Int := if frm < 0 then frm + b.length else frm
    if start < 0 then -1
    else
      match findFrom sep (b.drop start.toNat) start.toNat with
      | some i => i
      | none => -1

/-- The function `QChar::isSpace`: the ASCII white space, NEL, the no-break space
and the Unicode space, line and paragraph separators. -/
def isSpaceQChar (c : Char) : Bool :=
  isSpace c || c.toNat = 0x85 || c.toNat = 0xA0 || c.toNat = 0x1680
    || (0x2000 ≤ c.toNat && c.toNat ≤ 0x200A) || c.toNat = 0x2028 || c.toNat = 0x2029
    || c.toNat = 0x202F || c.toNat = 0x205F || c.toNat = 0x3000

/-- The function `QString::trimmed`: the characters for which `QChar::isSpace`
holds removed from both ends. -/
def trimmedQString (s : Bytes) : Bytes :=
  ((s.dropWhile isSpaceQChar).reverse.dropWhile isSpaceQChar).reverse

/-- The function `QString::toLatin1`: every UTF-16 code unit above 255 becomes
`?`; a character outside the basic plane is two code units. -/
def toLatin1 : Bytes → Bytes
  | [] => []
  | c :: cs =>
    if c.toNat < 256 then c :: toLatin1 cs
    else if c.toNat < 65536 then '?' :: toLatin1 cs
    else '?' :: '?' :: toLatin1 cs

/-- Text of 7-bit ASCII characters without the 0 byte. -/
def isPlainAscii (s : Bytes) : Bool :=
  s.all (fun c => 0 < c.toNat && c.toNat < 128)

/-- The value of a C++ `int` expression whose mathematical value is `x`
(two's complement, 32 bits). -/
def toInt32 (x : Int) : Int :=
  (x + 2147483648) % 4294967296 - 2147483648

end Qt

/-- The type `QVariantMap`: entries in iteration order. -/
abbrev QVariantMap := List (Bytes × Bytes)

namespace QMap

/-- The function `QMap::insertMulti(key, value)`: the new entry is placed before the first
entry whose key is not smaller than `key`, hence before every entry already
stored under `key`. -/
def insertMulti : QVariantMap → Bytes → Bytes → QVariantMap
  | [], key, value => [(key, value)]
  | e :: rest, key, value =>
    if e.1 < key then e :: insertMulti rest key value
    else (key, value) :: e :: rest

/-- The function `QMap::values(key)`: all values stored under `key`, from the most recently
inserted to the least recently inserted one. -/
def values (m : QVariantMap) (key : Bytes) : List Bytes :=
  (m.filter (fun e => e.1 = key)).map Prod.snd

/-- The function `QMap::contains(key)`. -/
def contains (m : QVariantMap) (key : Bytes) : Bool :=
  m.any (fun e => e.1 = key)

/-- The call `QMap::value(key)` followed by `QVariant::toString()`, and `operator[]` on
a temporary: the most recently inserted value under `key`, or the
default-constructed value when there is none. -/
def value (m : QVariantMap) (key : Bytes) : Bytes :=
  match m.find? (fun e => e.1 = key) with
  | some e => e.2
  | none => []

/-- The function `QMap::unite(other)`: walks `other` from its end to its beginning and
`insertMulti`s every entry. -/
def unite (m other : QVariantMap) : QVariantMap :=
  other.reverse.foldl (fun acc e => insertMulti acc e.1 e.2) m

end QMap

/-- The class `THttpRequestHeader`, seen through the accessors that
`thttprequest.cpp` calls on it. -/
structure THttpRequestHeader where
  /-- The accessor `method()`: the method token of the request line. -/
  method : Bytes
  /-- The accessor `path()`: the request URI, query suffix included. -/
  path : Bytes
  /-- The accessor `contentType()`. -/
  contentType : Bytes
  /-- The accessor `contentLength()`, as assigned to `int contlen`. -/
  contentLength : Int
  /-- The accessor `rawHeader(key)`. -/
  rawHeader : Bytes → Bytes

/-- Functions of the framework and of Qt that `thttprequest.cpp` calls and that
are defined elsewhere. -/
structure Collaborators where
  /-- The function `THttpUtility::fromUrlEncoding`. -/
  fromUrlEncoding : Bytes → Bytes
  /-- The composition `TMultipartFormData(body, boundary).formItems()`. -/
  multipartFormItems : Bytes → Bytes → QVariantMap
  /-- The function `QJsonDocument::fromJson`; `none` is the null document. -/
  fromJson : Bytes → Option Bytes
  /-- The constructor `THttpRequestHeader(const QByteArray &)`. -/
  parseHeader : Bytes → THttpRequestHeader
  /-- The 8-bit decoder behind the implicit conversion
  `QString(const QByteArray &)`: `QString::fromAscii` in Qt 4,
  `QString::fromUtf8` in Qt 5. -/
  decodeText : Bytes → Bytes

namespace Collaborators

/-- The implicit conversion `QString(const QByteArray &)`: it stops copying at
the first 0 byte and decodes the bytes before it. -/
def toQString (env : Collaborators) (b : Bytes) : Bytes :=
  env.decodeText (b.takeWhile (fun c => c != Char.ofNat 0))

/-- The 8-bit decoder leaves 7-bit ASCII text unchanged, as Latin-1 and UTF-8
decoding do. -/
def DecodesAscii (env : Collaborators) : Prop :=
  ∀ s : Bytes, (∀ c ∈ s, c.toNat < 128) → env.decodeText s = s

end Collaborators

/-- The shared data `THttpRequestData` behind a `THttpRequest`. -/
structure THttpRequest where
  header : THttpRequestHeader
  queryItems : QVariantMap
  formItems : QVariantMap
  jsonData : Option Bytes
  clientAddress : Bytes

/-- The table `MethodHash`, in the order of its `insert` calls. -/
def MethodHash : List (Bytes × Tf.HttpMethod) :=
  [ ("get".toList, Tf.HttpMethod.Get),
    ("head".toList, Tf.HttpMethod.Head),
    ("post".toList, Tf.HttpMethod.Post),
    ("options".toList, Tf.HttpMethod.Options),
    ("put".toList, Tf.HttpMethod.Put),
    ("delete".toList, Tf.HttpMethod.Delete),
    ("trace".toList, Tf.HttpMethod.Trace),
    ("patch".toList, Tf.HttpMethod.Patch) ]

namespace MethodHash

/-- The call `methodHash()->contains(s)`. -/
def contains (s : Bytes) : Bool :=
  MethodHash.any (fun e => e.1 = s)

/-- The call `methodHash()->value(s)`: the stored method, or the default-constructed
enum value `Tf::Invalid`. -/
def value (s : Bytes) : Tf.HttpMethod :=
  match MethodHash.find? (fun e => e.1 = s) with
  | some e => e.2
  | none => Tf.HttpMethod.Invalid

end MethodHash

namespace THttpRequest

/-- The function `THttpRequest::hasQueryItem`. -/
def hasQueryItem (r : THttpRequest) (name : Bytes) : Bool :=
  QMap.contains r.queryItems name

/-- The function `THttpRequest::queryItemValue(name)`. -/
def queryItemValue (r : THttpRequest) (name : Bytes) : Bytes :=
  QMap.value r.queryItems name

/-- The function `THttpRequest::allQueryItemValues`. -/
def allQueryItemValues (r : THttpRequest) (name : Bytes) : List Bytes :=
  QMap.values r.queryItems name

/-- The function `THttpRequest::hasFormItem`. -/
def hasFormItem (r : THttpRequest) (name : Bytes) : Bool :=
  QMap.contains r.formItems name

/-- The function `THttpRequest::formItemValue(name)`. -/
def formItemValue (r : THttpRequest) (name : Bytes) : Bytes :=
  QMap.value r.formItems name

/-- The function `THttpRequest::allFormItemValues`. -/
def allFormItemValues (r : THttpRequest) (name : Bytes) : List Bytes :=
  QMap.values r.formItems name

/-- The function `THttpRequest::method`. -/
def method (r : THttpRequest) : Tf.HttpMethod :=
  let s := Qt.toLower r.header.method
  if !MethodHash.contains s then Tf.HttpMethod.Invalid
  else
    let ret := MethodHash.value s
    if ret = Tf.HttpMethod.Post ∧ hasQueryItem r "_method".toList = true then
      let queryMethod := queryItemValue r "_method".toList
      if MethodHash.contains queryMethod then MethodHash.value queryMethod else ret
    else ret

/-- The function `THttpRequest::allParameters`. -/
def allParameters (r : THttpRequest) : QVariantMap :=
  QMap.unite r.queryItems r.formItems

/-- The function `THttpRequest::parameter`. -/
def parameter (r : THttpRequest) (name : Bytes) : Bytes :=
  QMap.value (allParameters r) name

/-- The `for` loop of `THttpRequest::boundary` over the `;`-separated segments:
the first segment that, trimmed, starts with `boundary=` gives the result and
ends the loop. -/
def boundaryLoop : List Bytes → Bytes
  | [] => []
  | s :: rest =>
    let string := Qt.trimmedQString s
    if Qt.startsWithCI string "boundary=".toList then
      "--".toList ++ Qt.toLatin1 (string.drop 9)
    else boundaryLoop rest

/-- The function `THttpRequest::boundary`: the header value is trimmed as a
`QByteArray` and then converted to the `QString contentType`. -/
def boundary (env : Collaborators) (r : THttpRequest) : Bytes :=
  let contentType := env.toQString (Qt.trimmed (r.header.rawHeader "content-type".toList))
  if Qt.startsWithCI contentType "multipart/form-data".toList then
    boundaryLoop (Qt.splitSkipEmptyParts ';' contentType)
  else []

/-- The loop of `parseBody` over `body.split('&')` in the
`application/x-www-form-urlencoded` branch. -/
def formLoop (env : Collaborators) : List Bytes → QVariantMap → QVariantMap
  | [], formItems => formItems
  | pair :: rest, formItems =>
    let nameval := Qt.split '=' pair
    if !(Qt.value nameval 0).isEmpty then
      let key := env.fromUrlEncoding (Qt.value nameval 0)
      let val := env.fromUrlEncoding (Qt.value nameval 1)
      formLoop env rest (QMap.insertMulti formItems key val)
    else formLoop env rest formItems

/-- The loop of `parseBody` over the pairs of the query string in the
`case Tf::Get` block; the pairs are `QString`s and go through `toLatin1()`
before they are decoded. -/
def queryLoop (env : Collaborators) : List Bytes → QVariantMap → QVariantMap
  | [], queryItems => queryItems
  | pair :: rest, queryItems =>
    let s := Qt.split '=' pair
    if !(Qt.value s 0).isEmpty then
      let key := env.fromUrlEncoding (Qt.toLatin1 (Qt.value s 0))
      let val := env.fromUrlEncoding (Qt.toLatin1 (Qt.value s 1))
      queryLoop env rest (QMap.insertMulti queryItems key val)
    else queryLoop env rest queryItems

/-- The block of `case Tf::Get` in `parseBody`: the query parameters of the
path; `QString getdata = data.value(1)` converts the bytes after the first `?`
to a `QString`. -/
def parseQuery (env : Collaborators) (r : THttpRequest) : THttpRequest :=
  let data := Qt.split '?' r.header.path
  let getdata := env.toQString (Qt.value data 1)
  if !getdata.isEmpty then
    let pairs := Qt.splitSkipEmptyParts '&' getdata
    { r with queryItems := queryLoop env pairs r.queryItems }
  else r

/-- The block of `case Tf::Post` in `parseBody`, before it falls through. -/
def parsePost (env : Collaborators) (r : THttpRequest) (body : Bytes)
    (header : THttpRequestHeader) : THttpRequest :=
  let ctype := Qt.trimmed header.contentType
  if Qt.startsWithCI ctype "multipart/form-data".toList then
    { r with formItems := env.multipartFormItems body (boundary env r) }
  else if Qt.startsWithCI ctype "application/json".toList then
    { r with jsonData := env.fromJson body }
  else if !body.isEmpty then
    { r with formItems := formLoop env (Qt.split '&' body) r.formItems }
  else r

/-- The function `THttpRequest::parseBody`: `case Tf::Post` falls through to `case Tf::Get`,
every other method does nothing. -/
def parseBody (env : Collaborators) (r : THttpRequest) (body : Bytes)
    (header : THttpRequestHeader) : THttpRequest :=
  match method r with
  | Tf.HttpMethod.Post => parseQuery env (parsePost env r body header)
  | Tf.HttpMethod.Get => parseQuery env r
  | _ => r

/-- The constructor `THttpRequest(header, body, clientAddress)`. -/
def create (env : Collaborators) (header : THttpRequestHeader) (body clientAddress : Bytes) :
    THttpRequest :=
  parseBody env
    { header := header, queryItems := [], formItems := [], jsonData := none,
      clientAddress := clientAddress }
    body header

/-- The separator searched for by `generate`. -/
def CRLFCRLF : Bytes := "\r\n\r\n".toList

/-- The `while` loop of `THttpRequest::generate`, started at offset `frm` with
the requests collected so far; `none` when `fuel` iterations do not reach the
end of the loop. -/
def generateLoop (env : Collaborators) (byteArray address : Bytes) :
    Nat → Int → List THttpRequest → Option (List THttpRequest)
  | 0, _, _ => none
  | fuel + 1, frm, reqList =>
    let headidx := Qt.indexOf byteArray CRLFCRLF frm
    if headidx > 0 then
      let headidx := headidx + 4
      let header := env.parseHeader (Qt.mid byteArray frm (-1))
      let contlen := header.contentLength
      let reqList :=
        if contlen ≤ 0 then reqList ++ [create env header [] address]
        else reqList ++ [create env header (Qt.mid byteArray headidx contlen) address]
      generateLoop env byteArray address fuel (Qt.toInt32 (headidx + contlen)) reqList
    else some reqList

/-- The function `THttpRequest::generate`, run for at most `fuel` iterations of its loop. -/
def generate (env : Collaborators) (fuel : Nat) (byteArray address : Bytes) :
    Option (List THttpRequest) :=
  generateLoop env byteArray address fuel 0 []

end THttpRequest

/-! ## Sample collaborators, used to evaluate the code on concrete requests -/

/-- A header parser for evaluation.  It reads the header block, the bytes
before the first CRLFCRLF, only: the method token and the path are the first
two space-separated words of its first line, and the content length is the
number of `x` bytes after its last `:`. -/
def sampleParseHeader (b : Bytes) : THttpRequestHeader :=
  let block := b.take (Qt.indexOf b THttpRequest.CRLFCRLF 0).toNat
  let words := Qt.split ' ' (block.takeWhile (fun c => c != '\r'))
  { method := Qt.value words 0,
    path := Qt.value words 1,
    contentType := [],
    contentLength := ((Qt.split ':' block).getLast?.getD []).count 'x',
    rawHeader := fun _ => [] }

/-- Collaborators for evaluation: URL decoding and the 8-bit decoder leave their
argument unchanged, there are no multipart form items and no JSON documents. -/
def sampleEnv : Collaborators :=
  { fromUrlEncoding := fun b => b,
    multipartFormItems := fun _ _ => [],
    fromJson := fun _ => none,
    parseHeader := sampleParseHeader,
    decodeText := fun b => b }

/-- A request header with the given method token, path and content type. -/
def sampleHeader (method path contentType : Bytes) : THttpRequestHeader :=
  { method := method, path := path, contentType := contentType, contentLength := 0,
    rawHeader := fun key => if key = "content-type".toList then contentType else [] }

/-! ## Pipelined messages -/

/-- One HTTP request message of a buffer: the header block and the body, which
stand on the two sides of a CRLFCRLF. -/
structure Message where
  head : Bytes
  body : Bytes

namespace Message

/-- The bytes of the message. -/
def bytes (m : Message) : Bytes :=
  m.head ++ THttpRequest.CRLFCRLF ++ m.body

/-- The buffer made of the messages, one after the other. -/
def stream : List Message → Bytes
  | [] => []
  | m :: rest => m.bytes ++ stream rest

/-- The header block is not empty and the CRLFCRLF that ends it is the first
one of the message. -/
def HeadOk (m : Message) : Prop :=
  m.head ≠ [] ∧ Qt.indexOf (m.head ++ THttpRequest.CRLFCRLF) THttpRequest.CRLFCRLF 0 = m.head.length

/-- A well-formed message: a header block as in `HeadOk` whose content length
is the length of the body. -/
def WellFormed (env : Collaborators) (m : Message) : Prop :=
  m.HeadOk ∧ (env.parseHeader (m.head ++ THttpRequest.CRLFCRLF)).contentLength = m.body.length

instance (m : Message) : Decidable m.HeadOk := by
  unfold HeadOk
  infer_instance

instance (env : Collaborators) (m : Message) : Decidable (m.WellFormed env) := by
  unfold WellFormed
  infer_instance

/-- Well-formed messages as `generate` meets them: the content length is the
one of the header parsed from the buffer at the start of the message. -/
def Framed (env : Collaborators) : List Message → Prop
  | [] => True
  | m :: rest =>
    m.HeadOk ∧ (env.parseHeader (stream (m :: rest))).contentLength = m.body.length
      ∧ Framed env rest

/-- The requests of the messages, each built from the header parsed at the
start of the message and from the body of the message. -/
def requests (env : Collaborators) (address : Bytes) : List Message → List THttpRequest
  | [] => []
  | m :: rest =>
    THttpRequest.create env (env.parseHeader (stream (m :: rest))) m.body address
      :: requests env address rest

end Message

/-- The header parser reads the header block only: what follows the first
CRLFCRLF of its argument does not change the header it returns. -/
def Collaborators.HeaderLocal (env : Collaborators) : Prop :=
  ∀ head rest : Bytes, (Message.mk head []).HeadOk →
    env.parseHeader (head ++ THttpRequest.CRLFCRLF ++ rest)
      = env.parseHeader (head ++ THttpRequest.CRLFCRLF)

/-! ## The shape of query strings and form bodies -/

namespace Qt

/-- The function `QByteArrayList::join(sep)`: the parts with `sep` between neighbours. -/
def join (sep : Char) : List Bytes → Bytes
  | [] => []
  | [s] => s
  | s :: t :: rest => s ++ sep :: join sep (t :: rest)

end Qt

/-- One `&`-separated piece of a query string or form body: a name, `=`, a
value, and `extra`, which is empty or starts at a second `=`. -/
structure Segment where
  name : Bytes
  value : Bytes
  extra : Bytes

namespace Segment

/-- The text of the piece. -/
def bytes (s : Segment) : Bytes :=
  s.name ++ '=' :: (s.value ++ s.extra)

/-- The piece as it stands in a form body: a non-empty name, no separator
inside the name or the value, and `extra` either absent or starting with `=`. -/
def InForm (s : Segment) : Prop :=
  s.name ≠ [] ∧ '=' ∉ s.name ∧ '&' ∉ s.name ∧ '=' ∉ s.value ∧ '&' ∉ s.value
    ∧ (s.extra = [] ∨ s.extra.head? = some '=') ∧ '&' ∉ s.extra

/-- The piece as it stands in the query string of a path: as in a form body,
and free of `?`. -/
def InQuery (s : Segment) : Prop :=
  s.InForm ∧ '?' ∉ s.bytes

instance (s : Segment) : Decidable s.InForm := by
  unfold InForm
  infer_instance

instance (s : Segment) : Decidable s.InQuery := by
  unfold InQuery
  infer_instance

/-- The name and value of the piece after URL decoding. -/
def decoded (env : Collaborators) (s : Segment) : Bytes × Bytes :=
  (env.fromUrlEncoding s.name, env.fromUrlEncoding s.value)

/-- The piece `name=value`. -/
def ofPair (p : Bytes × Bytes) : Segment :=
  { name := p.1, value := p.2, extra := [] }

end Segment

/-- The entries inserted one after the other with `insertMulti`. -/
def QMap.insertAll (m : QVariantMap) (l : List (Bytes × Bytes)) : QVariantMap :=
  l.foldl (fun acc e => QMap.insertMulti acc e.1 e.2) m

/-! ## Array-style form keys -/

namespace Qt

/-- The call `str.endsWith(s)` of `QString`. -/
def endsWith (str s : Bytes) : Bool :=
  s.reverse.isPrefixOf str.reverse

end Qt

namespace THttpRequest

/-- The local `k` of `THttpRequest::formItemList`: the key, with `[]` appended
unless it already ends with `[]`. -/
def formItemListKey (key : Bytes) : Bytes :=
  if !Qt.endsWith key "[]".toList then key ++ "[]".toList else key

/-- The function `THttpRequest::formItemList`. -/
def formItemList (r : THttpRequest) (key : Bytes) : List Bytes :=
  allFormItemValues r (formItemListKey key)

end THttpRequest

/-- A piece of a query string or form body that has a name: it is not empty
and does not start with `=`. -/
def THttpRequest.namedPair : Bytes → Bool
  | [] => false
  | c :: _ => c != '='

/-! ## A sample header parser with a signed content length -/

/-- The number written by a string of decimal digits. -/
def sampleDecimal (s : Bytes) : Nat :=
  s.foldl (fun n c => 10 * n + (c.toNat - 48)) 0

/-- A header parser for evaluation that reads a signed decimal content length:
like `sampleParseHeader`, but the content length is the number, with an
optional leading `-`, after the only `:` of the header block, and 0 when the
block has no `:`. -/
def sampleParseHeaderSigned (b : Bytes) : THttpRequestHeader :=
  let block := b.take (Qt.indexOf b THttpRequest.CRLFCRLF 0).toNat
  let words := Qt.split ' ' (block.takeWhile (fun c => c != '\r'))
  { method := Qt.value words 0,
    path := Qt.value words 1,
    contentType := [],
    contentLength :=
      match Qt.split ':' block with
      | [_, '-' :: digits] => - (sampleDecimal digits : Int)
      | [_, digits] => (sampleDecimal digits : Int)
      | _ => 0,
    rawHeader := fun _ => [] }

/-- Collaborators for evaluation with the signed header parser. -/
def sampleEnvSigned : Collaborators :=
  { fromUrlEncoding := fun b => b,
    multipartFormItems := fun _ _ => [],
    fromJson := fun _ => none,
    parseHeader := sampleParseHeaderSigned,
    decodeText := fun b => b }

/-! ## The connection pool

`tsqldatabasepool.h` declares `pop`, `push`, `maxConnectionsPerProcess` and the
timer event of `TSqlDatabasePool`; their bodies are in another file.  The pool
is modelled from its description: every operation runs under the one mutex of
the pool, so a run of the pool is a sequence of whole operations. -/

namespace TSqlDatabasePool

/-- Modelled from the spec: the bodies of `TSqlDatabasePool::pop`, `push` and
`timerEvent` are missing.  A pooled connection is an opaque handle, here the
serial number of its opening, with the database id it belongs to and the time
of its last release. -/
structure PooledConnection where
  databaseId : Nat
  handle : Nat
  lastReleasedAt : Nat
  deriving DecidableEq, Repr

/-- Modelled from the spec: the bodies of `TSqlDatabasePool::pop`, `push` and
`timerEvent` are missing.  The state of the pool is the collection of idle
connections, the connections that are checked out, and the number of
connections opened so far. -/
structure PoolState where
  idle : List PooledConnection
  inUse : List PooledConnection
  opened : Nat
  deriving Repr

/-- Modelled from the spec: the constructor of the pool is missing.  The pool
starts without connections. -/
def init : PoolState :=
  { idle := [], inUse := [], opened := 0 }

/-- Modelled from the spec: the live-connection count of the pool is missing.
The live connections of a database id are its idle ones plus its checked-out
ones. -/
def liveCount (s : PoolState) (databaseId : Nat) : Nat :=
  (s.idle.filter (fun c => c.databaseId = databaseId)).length
    + (s.inUse.filter (fun c => c.databaseId = databaseId)).length

/-- Modelled from the spec: the body of `TSqlDatabasePool::pop` is missing.  If
an idle connection exists for `databaseId` it is removed from the idle set and
returned, marked in use; otherwise, if the live-connection count of the id is
below `maxConnectionsPerProcess`, a new connection is opened and returned;
otherwise the call fails and the pool is unchanged. -/
def pop (maxConnectionsPerProcess : Nat) (s : PoolState) (databaseId : Nat) :
    Option PooledConnection × PoolState :=
  match s.idle.find? (fun c => c.databaseId = databaseId) with
  | some c =>
    (some c, { s with idle := s.idle.filter (fun d => d.handle ≠ c.handle),
                      inUse := c :: s.inUse })
  | none =>
    if liveCount s databaseId < maxConnectionsPerProcess then
      let c : PooledConnection :=
        { databaseId := databaseId, handle := s.opened, lastReleasedAt := 0 }
      (some c, { s with inUse := c :: s.inUse, opened := s.opened + 1 })
    else (none, s)

/-- Modelled from the spec: the body of `TSqlDatabasePool::push` is missing.  A
connection that is checked out goes back to the idle set of its database id
with `now` as its idle-since time, or is discarded when the driver reports it
broken; `push` is the transition out of the in-use state, so a handle that is
not checked out changes nothing. -/
def push (s : PoolState) (handle : Nat) (broken : Bool) (now : Nat) : PoolState :=
  match s.inUse.find? (fun c => c.handle = handle) with
  | none => s
  | some c =>
    if broken then { s with inUse := s.inUse.filter (fun d => d.handle ≠ handle) }
    else
      { s with inUse := s.inUse.filter (fun d => d.handle ≠ handle),
               idle := { c with lastReleasedAt := now } :: s.idle }

/-- Modelled from the spec: the body of `TSqlDatabasePool::timerEvent` is
missing.  The sweep closes and evicts every idle connection that has been idle
for longer than `maxIdle`. -/
def sweep (maxIdle : Nat) (s : PoolState) (now : Nat) : PoolState :=
  { s with idle := s.idle.filter (fun c => now - c.lastReleasedAt ≤ maxIdle) }

/-- An operation on the pool, run as a whole under the mutex of the pool. -/
inductive Op where
  | pop (databaseId : Nat)
  | push (handle : Nat) (broken : Bool) (now : Nat)
  | sweep (now : Nat)
  deriving Repr

/-- The state after one operation. -/
def step (maxConnectionsPerProcess maxIdle : Nat) (s : PoolState) : Op → PoolState
  | Op.pop databaseId => (pop maxConnectionsPerProcess s databaseId).2
  | Op.push handle broken now => push s handle broken now
  | Op.sweep now => sweep maxIdle s now

/-- The state reached from the empty pool by a sequence of operations. -/
def run (maxConnectionsPerProcess maxIdle : Nat) (ops : List Op) : PoolState :=
  ops.foldl (step maxConnectionsPerProcess maxIdle) init

/-- The handles of the live connections of a state. -/
def liveHandles (s : PoolState) : List Nat :=
  (s.idle ++ s.inUse).map PooledConnection.handle

/-- The invariant of the pool: at most `maxConnectionsPerProcess` live
connections per database id, no handle twice among the idle or among the
checked-out connections, no handle both idle and checked out, and every handle
below the number of connections opened. -/
def Invariant (maxConnectionsPerProcess : Nat) (s : PoolState) : Prop :=
  (∀ databaseId, liveCount s databaseId ≤ maxConnectionsPerProcess)
  ∧ (s.idle.map PooledConnection.handle).Nodup
  ∧ (s.inUse.map PooledConnection.handle).Nodup
  ∧ (∀ c ∈ s.idle, ∀ d ∈ s.inUse, c.handle ≠ d.handle)
  ∧ (∀ c ∈ s.idle, c.handle < s.opened)
  ∧ (∀ c ∈ s.inUse, c.handle < s.opened)

end TSqlDatabasePool

/-! ## Properties of the `QMap` operations -/

namespace QMap

theorem values_insertMulti (m : QVariantMap) (k v key : Bytes) :
    values (insertMulti m k v) key = if k = key then v :: values m key else values m key := by
  induction m with
  | nil => by_cases h : k = key <;> simp [insertMulti, values, h]
  | cons e rest ih =>
    unfold insertMulti
    by_cases hlt : e.1 < k
    · have hne : e.1 ≠ k := fun h => by rw [h] at hlt; exact lt_irrefl _ hlt
      simp only [hlt, if_true]
      by_cases he : e.1 = key
      · have hk : k ≠ key := fun h => hne (he.trans h.symm)
        have ih2 : values (insertMulti rest k v) key = values rest key := by simpa [hk] using ih
        simp [values, he, hk] at ih2 ⊢
        exact ih2
      · by_cases hk : k = key
        · have ih2 : values (insertMulti rest k v) key = v :: values rest key := by simpa [hk] using ih
          simp [values, he, hk] at ih2 ⊢
          exact ih2
        · have ih2 : values (insertMulti rest k v) key = values rest key := by simpa [hk] using ih
          simp [values, he, hk] at ih2 ⊢
          exact ih2
    · simp only [hlt, if_false]
      by_cases hk : k = key <;> simp [values, hk]

theorem value_eq_headD (m : QVariantMap) (key : Bytes) :
    value m key = (values m key).headD [] := by
  induction m with
  | nil => simp [value, values]
  | cons e rest ih =>
    by_cases he : e.1 = key
    · simp [value, values, List.find?, he]
    · simp [value, values, List.find?, he] at ih ⊢
      exact ih

theorem contains_eq (m : QVariantMap) (key : Bytes) :
    contains m key = !(values m key).isEmpty := by
  induction m with
  | nil => simp [contains, values]
  | cons e rest ih =>
    by_cases he : e.1 = key
    · simp [contains, values, he]
    · simp [contains, values, he] at ih ⊢
      exact ih

theorem values_foldl_insertMulti (l : List (Bytes × Bytes)) (m : QVariantMap) (key : Bytes) :
    values (l.foldl (fun acc e => insertMulti acc e.1 e.2) m) key
      = ((l.filter (fun e => e.1 = key)).map Prod.snd).reverse ++ values m key := by
  induction l generalizing m with
  | nil => simp
  | cons e rest ih =>
    simp only [List.foldl_cons]
    rw [ih, values_insertMulti]
    by_cases he : e.1 = key <;> simp [he]

theorem values_unite (m other : QVariantMap) (key : Bytes) :
    values (unite m other) key = values other key ++ values m key := by
  unfold unite
  rw [values_foldl_insertMulti]
  simp [values, List.filter_reverse]

end QMap

/-! ## The method table -/

namespace MethodHash

/-- The table has eight names; every other string is absent from it. -/
theorem value_cases (s : Bytes) :
    (s = "get".toList ∧ value s = Tf.HttpMethod.Get)
    ∨ (s = "head".toList ∧ value s = Tf.HttpMethod.Head)
    ∨ (s = "post".toList ∧ value s = Tf.HttpMethod.Post)
    ∨ (s = "options".toList ∧ value s = Tf.HttpMethod.Options)
    ∨ (s = "put".toList ∧ value s = Tf.HttpMethod.Put)
    ∨ (s = "delete".toList ∧ value s = Tf.HttpMethod.Delete)
    ∨ (s = "trace".toList ∧ value s = Tf.HttpMethod.Trace)
    ∨ (s = "patch".toList ∧ value s = Tf.HttpMethod.Patch)
    ∨ (value s = Tf.HttpMethod.Invalid ∧ contains s = false
        ∧ s ∉ ["get".toList, "head".toList, "post".toList, "options".toList, "put".toList,
            "delete".toList, "trace".toList, "patch".toList]) := by
  by_cases a1 : s = "get".toList
  · exact Or.inl ⟨a1, by rw [a1]; decide⟩
  by_cases a2 : s = "head".toList
  · exact Or.inr (Or.inl ⟨a2, by rw [a2]; decide⟩)
  by_cases a3 : s = "post".toList
  · exact Or.inr (Or.inr (Or.inl ⟨a3, by rw [a3]; decide⟩))
  by_cases a4 : s = "options".toList
  · exact Or.inr (Or.inr (Or.inr (Or.inl ⟨a4, by rw [a4]; decide⟩)))
  by_cases a5 : s = "put".toList
  · exact Or.inr (Or.inr (Or.inr (Or.inr (Or.inl ⟨a5, by rw [a5]; decide⟩))))
  by_cases a6 : s = "delete".toList
  · exact Or.inr (Or.inr (Or.inr (Or.inr (Or.inr (Or.inl ⟨a6, by rw [a6]; decide⟩)))))
  by_cases a7 : s = "trace".toList
  · exact Or.inr (Or.inr (Or.inr (Or.inr (Or.inr (Or.inr (Or.inl ⟨a7, by rw [a7]; decide⟩))))))
  by_cases a8 : s = "patch".toList
  · exact Or.inr (Or.inr (Or.inr (Or.inr (Or.inr (Or.inr (Or.inr
      (Or.inl ⟨a8, by rw [a8]; decide⟩)))))))
  have hall : ∀ e ∈ MethodHash, ¬ e.1 = s := by
    intro e he
    unfold MethodHash at he
    simp only [List.mem_cons, List.mem_singleton, List.not_mem_nil, or_false] at he
    rcases he with h | h | h | h | h | h | h | h <;> rw [h] <;> intro h2
    · exact a1 h2.symm
    · exact a2 h2.symm
    · exact a3 h2.symm
    · exact a4 h2.symm
    · exact a5 h2.symm
    · exact a6 h2.symm
    · exact a7 h2.symm
    · exact a8 h2.symm
  refine Or.inr (Or.inr (Or.inr (Or.inr (Or.inr (Or.inr (Or.inr (Or.inr ⟨?_, ?_, ?_⟩)))))))
  · unfold value
    rw [List.find?_eq_none.2]
    intro e he
    simpa using hall e he
  · unfold contains
    rw [List.any_eq_false]
    intro e he
    simpa using hall e he
  · intro hmem
    simp only [List.mem_cons, List.mem_singleton, List.not_mem_nil, or_false] at hmem
    rcases hmem with h | h | h | h | h | h | h | h
    · exact a1 h
    · exact a2 h
    · exact a3 h
    · exact a4 h
    · exact a5 h
    · exact a6 h
    · exact a7 h
    · exact a8 h

theorem value_of_not_contains (s : Bytes) (h : contains s = false) :
    value s = Tf.HttpMethod.Invalid := by
  unfold contains at h
  rw [List.any_eq_false] at h
  unfold value
  rw [List.find?_eq_none.2]
  intro e he
  simpa using h e he

theorem contains_of_mem (s : Bytes)
    (h : s ∈ ["get".toList, "head".toList, "post".toList, "options".toList, "put".toList,
            "delete".toList, "trace".toList, "patch".toList]) : contains s = true := by
  simp only [List.mem_cons, List.mem_singleton, List.not_mem_nil, or_false] at h
  rcases h with h | h | h | h | h | h | h | h <;> rw [h] <;> decide

end MethodHash

/-! ## Method resolution -/

namespace THttpRequest

theorem method_of_no_query (r : THttpRequest) (h : r.queryItems = []) :
    method r = MethodHash.value (Qt.toLower r.header.method) := by
  unfold method
  by_cases hc : MethodHash.contains (Qt.toLower r.header.method) = true
  · simp [hc, hasQueryItem, QMap.contains, h]
  · have hv : MethodHash.value (Qt.toLower r.header.method) = Tf.HttpMethod.Invalid := by
      simp only [MethodHash.contains, List.any_eq_true, not_exists, not_and] at hc
      unfold MethodHash.value
      rw [List.find?_eq_none.2]
      intro e he
      simpa using hc e he
    simp [hc, hv]

theorem method_congr (r1 r2 : THttpRequest) (hm : r1.header.method = r2.header.method)
    (hq : r1.queryItems = r2.queryItems) : method r1 = method r2 := by
  simp [method, hasQueryItem, queryItemValue, hm, hq]

end THttpRequest

/-! ## Conversions between byte arrays and strings -/

namespace Qt

theorem mem_of_isPlainAscii (s : Bytes) (h : isPlainAscii s = true) (c : Char) (hc : c ∈ s) :
    0 < c.toNat ∧ c.toNat < 128 := by
  unfold isPlainAscii at h
  have := List.all_eq_true.1 h c hc
  simpa using this

theorem isPlainAscii_of_mem (s : Bytes) (h : ∀ c ∈ s, 0 < c.toNat ∧ c.toNat < 128) :
    isPlainAscii s = true := by
  unfold isPlainAscii
  rw [List.all_eq_true]
  intro c hc
  simpa using h c hc

theorem isPlainAscii_of_subset (s t : Bytes) (h : isPlainAscii t = true)
    (hsub : ∀ c ∈ s, c ∈ t) : isPlainAscii s = true :=
  isPlainAscii_of_mem s (fun c hc => mem_of_isPlainAscii t h c (hsub c hc))

theorem toLatin1_of_latin1 (s : Bytes) (h : ∀ c ∈ s, c.toNat < 256) : toLatin1 s = s := by
  induction s with
  | nil => rfl
  | cons c cs ih =>
    have hc : c.toNat < 256 := h c (by simp)
    rw [toLatin1, if_pos hc, ih (fun x hx => h x (by simp [hx]))]

theorem toLatin1_of_plain (s : Bytes) (h : isPlainAscii s = true) : toLatin1 s = s :=
  toLatin1_of_latin1 s (fun c hc => by
    have := (mem_of_isPlainAscii s h c hc).2
    omega)

theorem mem_of_mem_split (sep : Char) (p : Bytes) :
    ∀ q ∈ split sep p, ∀ c ∈ q, c ∈ p := by
  induction p with
  | nil =>
    intro q hq c hc
    simp only [split, List.mem_singleton] at hq
    rw [hq] at hc
    exact hc
  | cons x xs ih =>
    intro q hq c hc
    rw [split] at hq
    by_cases hx : x = sep
    · simp only [hx, if_true, List.mem_cons] at hq
      rcases hq with hq | hq
      · rw [hq] at hc
        simp at hc
      · exact List.mem_cons_of_mem _ (ih q hq c hc)
    · simp only [hx, if_false] at hq
      cases hs : split sep xs with
      | nil =>
        rw [hs] at hq
        simp only [List.mem_singleton] at hq
        rw [hq] at hc
        have hcx : c = x := by simpa using hc
        rw [hcx]
        simp
      | cons y ys =>
        rw [hs] at hq
        simp only [List.mem_cons] at hq
        rcases hq with hq | hq
        · rw [hq] at hc
          rcases List.mem_cons.1 hc with h1 | h1
          · rw [h1]; simp
          · exact List.mem_cons_of_mem _ (ih y (by rw [hs]; simp) c h1)
        · exact List.mem_cons_of_mem _ (ih q (by rw [hs]; simp [hq]) c hc)

theorem mem_of_mem_value (l : List Bytes) (i : Nat) (c : Char) (hc : c ∈ value l i) :
    ∃ q ∈ l, c ∈ q := by
  unfold value at hc
  rw [List.getD_eq_getElem?_getD] at hc
  cases h : l[i]? with
  | none => simp [h] at hc
  | some q =>
    rw [h] at hc
    exact ⟨q, List.getElem?_mem h, by simpa using hc⟩

theorem isPlainAscii_value_split (sep : Char) (p : Bytes) (i : Nat)
    (h : isPlainAscii p = true) : isPlainAscii (value (split sep p) i) = true := by
  apply isPlainAscii_of_subset _ p h
  intro c hc
  obtain ⟨q, hq, hcq⟩ := mem_of_mem_value _ _ _ hc
  exact mem_of_mem_split sep p q hq c hcq

theorem isPlainAscii_of_mem_split (sep : Char) (p q : Bytes) (hq : q ∈ split sep p)
    (h : isPlainAscii p = true) : isPlainAscii q = true :=
  isPlainAscii_of_subset _ p h (fun c hc => mem_of_mem_split sep p q hq c hc)

theorem isPlainAscii_join (sep : Char) (segs : List Bytes)
    (hsep : 0 < sep.toNat ∧ sep.toNat < 128) (h : ∀ p ∈ segs, isPlainAscii p = true) :
    isPlainAscii (join sep segs) = true := by
  induction segs with
  | nil => rfl
  | cons p rest ih =>
    cases rest with
    | nil => simpa [join] using h p (by simp)
    | cons q rest =>
      rw [join]
      apply isPlainAscii_of_mem
      intro c hc
      rcases List.mem_append.1 hc with h1 | h1
      · exact mem_of_isPlainAscii p (h p (by simp)) c h1
      · rcases List.mem_cons.1 h1 with h2 | h2
        · rw [h2]; exact hsep
        · exact mem_of_isPlainAscii _ (ih (fun x hx => h x (by simp [hx]))) c h2

end Qt

theorem Collaborators.toQString_of_plain (env : Collaborators) (hcodec : env.DecodesAscii)
    (s : Bytes) (h : Qt.isPlainAscii s = true) : env.toQString s = s := by
  have htake : s.takeWhile (fun c => c != Char.ofNat 0) = s := by
    rw [List.takeWhile_eq_self_iff]
    intro c hc
    have h0 := (Qt.mem_of_isPlainAscii s h c hc).1
    have hne : c ≠ Char.ofNat 0 := by
      intro e
      rw [e] at h0
      exact absurd h0 (by decide)
    simpa using hne
  unfold Collaborators.toQString
  rw [htake]
  exact hcodec s (fun c hc => (Qt.mem_of_isPlainAscii s h c hc).2)

/-! ## The constructor -/

namespace THttpRequest

theorem parseQuery_header (env : Collaborators) (r : THttpRequest) :
    (parseQuery env r).header = r.header := by
  unfold parseQuery
  simp only []
  split_ifs <;> rfl

theorem parseQuery_formItems (env : Collaborators) (r : THttpRequest) :
    (parseQuery env r).formItems = r.formItems := by
  unfold parseQuery
  simp only []
  split_ifs <;> rfl

theorem parseQuery_queryItems (env : Collaborators) (r : THttpRequest) :
    (parseQuery env r).queryItems
      = queryLoop env
          (Qt.splitSkipEmptyParts '&' (env.toQString (Qt.value (Qt.split '?' r.header.path) 1)))
          r.queryItems := by
  unfold parseQuery
  by_cases h : (env.toQString (Qt.value (Qt.split '?' r.header.path) 1)).isEmpty = true
  · have h2 : env.toQString (Qt.value (Qt.split '?' r.header.path) 1) = [] := by
      simpa using h
    simp [h2, Qt.splitSkipEmptyParts, Qt.split, queryLoop]
  · simp [h]

theorem parsePost_header (env : Collaborators) (r : THttpRequest) (body : Bytes)
    (header : THttpRequestHeader) : (parsePost env r body header).header = r.header := by
  unfold parsePost
  simp only []
  split_ifs <;> rfl

theorem parsePost_queryItems (env : Collaborators) (r : THttpRequest) (body : Bytes)
    (header : THttpRequestHeader) : (parsePost env r body header).queryItems = r.queryItems := by
  unfold parsePost
  simp only []
  split_ifs <;> rfl

theorem create_header (env : Collaborators) (header : THttpRequestHeader)
    (body address : Bytes) : (create env header body address).header = header := by
  unfold create parseBody
  split
  · rw [parseQuery_header, parsePost_header]
  · rw [parseQuery_header]
  · rfl

/-- The query items of a constructed request are a function of the header alone. -/
theorem create_queryItems (env : Collaborators) (header : THttpRequestHeader)
    (body address : Bytes) :
    (create env header body address).queryItems
      = if MethodHash.value (Qt.toLower header.method) = Tf.HttpMethod.Post
            ∨ MethodHash.value (Qt.toLower header.method) = Tf.HttpMethod.Get then
          queryLoop env
            (Qt.splitSkipEmptyParts '&'
              (env.toQString (Qt.value (Qt.split '?' header.path) 1))) []
        else [] := by
  have hm : method (THttpRequest.mk header [] [] none address)
      = MethodHash.value (Qt.toLower header.method) :=
    method_of_no_query _ rfl
  unfold create parseBody
  rw [hm]
  split
  · rename_i h
    rw [parseQuery_queryItems, parsePost_header, parsePost_queryItems]
    simp [h]
  · rename_i h
    rw [parseQuery_queryItems]
    simp [h]
  · rename_i h1 h2
    rw [if_neg]
    rintro (h | h)
    · exact h1 h
    · exact h2 h

end THttpRequest

/-! ## Splitting and joining -/

namespace Qt

theorem split_ne_nil (sep : Char) (s : Bytes) : split sep s ≠ [] := by
  induction s with
  | nil => simp [split]
  | cons c cs ih =>
    unfold split
    by_cases h : c = sep
    · simp [h]
    · simp only [h, if_false]
      split <;> simp

theorem split_of_not_mem (sep : Char) (s : Bytes) (h : sep ∉ s) : split sep s = [s] := by
  induction s with
  | nil => simp [split]
  | cons c cs ih =>
    have hc : c ≠ sep := fun e => h (by simp [e])
    have hcs : sep ∉ cs := fun e => h (by simp [e])
    unfold split
    simp [hc, ih hcs]

theorem split_append_sep (sep : Char) (a b : Bytes) (h : sep ∉ a) :
    split sep (a ++ sep :: b) = a :: split sep b := by
  induction a with
  | nil => simp [split]
  | cons c cs ih =>
    have hc : c ≠ sep := fun e => h (by simp [e])
    have hcs : sep ∉ cs := fun e => h (by simp [e])
    rw [List.cons_append, split]
    simp [hc, ih hcs]

theorem split_join (sep : Char) (segs : List Bytes) (hne : segs ≠ [])
    (h : ∀ s ∈ segs, sep ∉ s) : split sep (join sep segs) = segs := by
  induction segs with
  | nil => exact absurd rfl hne
  | cons s rest ih =>
    cases rest with
    | nil => simpa [join] using split_of_not_mem sep s (h s (by simp))
    | cons t rest =>
      rw [join, split_append_sep sep s _ (h s (by simp))]
      rw [ih (by simp) (fun x hx => h x (by simp [hx]))]

theorem not_mem_join (c sep : Char) (segs : List Bytes) (hc : c ≠ sep)
    (h : ∀ s ∈ segs, c ∉ s) : c ∉ join sep segs := by
  induction segs with
  | nil => simp [join]
  | cons s rest ih =>
    cases rest with
    | nil => simpa [join] using h s (by simp)
    | cons t rest =>
      rw [join]
      intro hmem
      rcases List.mem_append.1 hmem with h1 | h1
      · exact h s (by simp) h1
      · rcases List.mem_cons.1 h1 with h2 | h2
        · exact hc h2
        · exact ih (fun x hx => h x (by simp [hx])) h2

theorem join_eq_nil (sep : Char) (segs : List Bytes) (h : join sep segs = []) :
    segs = [] ∨ segs = [[]] := by
  cases segs with
  | nil => simp
  | cons s rest =>
    cases rest with
    | nil => simpa [join] using h
    | cons t rest => simp [join] at h

end Qt

/-! ## Pieces of a query string or form body -/

namespace Segment

theorem split_bytes (s : Segment) (h : s.InForm) :
    Qt.value (Qt.split '=' s.bytes) 0 = s.name ∧ Qt.value (Qt.split '=' s.bytes) 1 = s.value := by
  obtain ⟨_, hn, _, hv, _, hx, _⟩ := h
  unfold bytes
  rw [Qt.split_append_sep '=' s.name _ hn]
  rcases hx with hx | hx
  · rw [hx, List.append_nil, Qt.split_of_not_mem '=' s.value hv]
    simp [Qt.value]
  · cases he : s.extra with
    | nil => simp [he] at hx
    | cons c rest =>
      have hc : c = '=' := by simpa [he] using hx
      rw [hc, Qt.split_append_sep '=' s.value _ hv]
      simp [Qt.value]

theorem bytes_ne_nil (s : Segment) : s.bytes ≠ [] := by
  simp [bytes]

theorem amp_not_mem_bytes (s : Segment) (h : s.InForm) : '&' ∉ s.bytes := by
  obtain ⟨_, _, hn, _, hv, _, hx⟩ := h
  simp [bytes, hn, hv, hx]

theorem inForm_ofPair (p : Bytes × Bytes) (h1 : p.1 ≠ []) (h2 : '=' ∉ p.1) (h3 : '&' ∉ p.1)
    (h4 : '=' ∉ p.2) (h5 : '&' ∉ p.2) : (ofPair p).InForm :=
  ⟨h1, h2, h3, h4, h5, Or.inl rfl, by simp [ofPair]⟩

end Segment

namespace THttpRequest

theorem formLoop_segments (env : Collaborators) (segs : List Segment)
    (h : ∀ s ∈ segs, s.InForm) (items : QVariantMap) :
    formLoop env (segs.map Segment.bytes) items
      = QMap.insertAll items (segs.map (Segment.decoded env)) := by
  induction segs generalizing items with
  | nil => simp [formLoop, QMap.insertAll]
  | cons s rest ih =>
    have hs := h s (by simp)
    obtain ⟨h0, h1⟩ := s.split_bytes hs
    have hne : s.name ≠ [] := hs.1
    have hstep : formLoop env (s.bytes :: rest.map Segment.bytes) items
        = formLoop env (rest.map Segment.bytes)
            (QMap.insertMulti items (env.fromUrlEncoding s.name) (env.fromUrlEncoding s.value)) := by
      rw [formLoop]
      simp [h0, h1, hne]
    rw [List.map_cons, hstep, ih (fun x hx => h x (by simp [hx]))]
    simp [QMap.insertAll, Segment.decoded]

theorem queryLoop_segments (env : Collaborators) (segs : List Segment)
    (h : ∀ s ∈ segs, s.InForm) (hplain : ∀ s ∈ segs, Qt.isPlainAscii s.bytes = true)
    (items : QVariantMap) :
    queryLoop env (segs.map Segment.bytes) items
      = QMap.insertAll items (segs.map (Segment.decoded env)) := by
  induction segs generalizing items with
  | nil => simp [queryLoop, QMap.insertAll]
  | cons s rest ih =>
    have hs := h s (by simp)
    obtain ⟨h0, h1⟩ := s.split_bytes hs
    have hne : s.name ≠ [] := hs.1
    have l0 : Qt.toLatin1 (Qt.value (Qt.split '=' s.bytes) 0) = s.name := by
      rw [Qt.toLatin1_of_plain _ (Qt.isPlainAscii_value_split '=' s.bytes 0
        (hplain s (by simp))), h0]
    have l1 : Qt.toLatin1 (Qt.value (Qt.split '=' s.bytes) 1) = s.value := by
      rw [Qt.toLatin1_of_plain _ (Qt.isPlainAscii_value_split '=' s.bytes 1
        (hplain s (by simp))), h1]
    have hstep : queryLoop env (s.bytes :: rest.map Segment.bytes) items
        = queryLoop env (rest.map Segment.bytes)
            (QMap.insertMulti items (env.fromUrlEncoding s.name) (env.fromUrlEncoding s.value)) := by
      rw [queryLoop]
      simp only [l0, l1]
      simp [h0, hne]
    rw [List.map_cons, hstep, ih (fun x hx => h x (by simp [hx]))
      (fun x hx => hplain x (by simp [hx]))]
    simp [QMap.insertAll, Segment.decoded]

theorem splitSkipEmptyParts_join (segs : List Segment) (h : ∀ s ∈ segs, s.InForm) :
    Qt.splitSkipEmptyParts '&' (Qt.join '&' (segs.map Segment.bytes))
      = segs.map Segment.bytes := by
  unfold Qt.splitSkipEmptyParts
  cases segs with
  | nil => simp [Qt.join, Qt.split]
  | cons s rest =>
    rw [Qt.split_join '&' _ (by simp)]
    · rw [List.filter_eq_self]
      intro b hb
      obtain ⟨x, _, hx⟩ := List.mem_map.1 hb
      have := x.bytes_ne_nil
      rw [hx] at this
      simpa using this
    · intro b hb
      obtain ⟨x, hx1, hx⟩ := List.mem_map.1 hb
      rw [← hx]
      exact x.amp_not_mem_bytes (h x hx1)

theorem query_of_path (base q : Bytes) (hb : '?' ∉ base) (hq : '?' ∉ q) :
    Qt.value (Qt.split '?' (base ++ '?' :: q)) 1 = q := by
  rw [Qt.split_append_sep '?' base q hb, Qt.split_of_not_mem '?' q hq]
  simp [Qt.value]

end THttpRequest

/-! ## Items of a constructed request -/

namespace QMap

theorem insertMulti_perm (m : QVariantMap) (k v : Bytes) :
    (insertMulti m k v).Perm ((k, v) :: m) := by
  induction m with
  | nil => simp [insertMulti]
  | cons e rest ih =>
    unfold insertMulti
    by_cases hlt : e.1 < k
    · simp only [hlt, if_true]
      exact (List.Perm.cons e ih).trans (List.Perm.swap _ _ _)
    · simp only [hlt, if_false]
      exact List.Perm.refl _

theorem insertAll_perm (l : List (Bytes × Bytes)) (m : QVariantMap) :
    (insertAll m l).Perm (l ++ m) := by
  induction l generalizing m with
  | nil => simp [insertAll]
  | cons e rest ih =>
    have h1 : insertAll m (e :: rest) = insertAll (insertMulti m e.1 e.2) rest := by
      simp [insertAll]
    rw [h1]
    refine (ih _).trans ?_
    refine (List.Perm.append_left rest (insertMulti_perm m e.1 e.2)).trans ?_
    exact List.perm_middle

theorem values_insertAll (l : List (Bytes × Bytes)) (key : Bytes) :
    values (insertAll [] l) key = ((l.filter (fun e => e.1 = key)).map Prod.snd).reverse := by
  unfold insertAll
  rw [values_foldl_insertMulti]
  simp [values]

end QMap

namespace THttpRequest

theorem value_post : MethodHash.value "post".toList = Tf.HttpMethod.Post := by decide

theorem value_get : MethodHash.value "get".toList = Tf.HttpMethod.Get := by decide

/-- Query items of a GET or POST request whose path ends in a well-formed
query string. -/
theorem create_queryItems_segments (env : Collaborators) (header : THttpRequestHeader)
    (body address base : Bytes) (segs : List Segment)
    (hverb : Qt.toLower header.method = "get".toList ∨ Qt.toLower header.method = "post".toList)
    (hpath : header.path = base ++ '?' :: Qt.join '&' (segs.map Segment.bytes))
    (hbase : '?' ∉ base) (hsegs : ∀ s ∈ segs, s.InQuery) (hcodec : env.DecodesAscii)
    (hplain : ∀ s ∈ segs, Qt.isPlainAscii s.bytes = true) :
    (create env header body address).queryItems
      = QMap.insertAll [] (segs.map (Segment.decoded env)) := by
  have hq : '?' ∉ Qt.join '&' (segs.map Segment.bytes) := by
    apply Qt.not_mem_join _ _ _ (by decide)
    intro b hb
    obtain ⟨x, hx1, hx⟩ := List.mem_map.1 hb
    rw [← hx]
    exact (hsegs x hx1).2
  have hform : ∀ s ∈ segs, s.InForm := fun s hs => (hsegs s hs).1
  have hjoin : Qt.isPlainAscii (Qt.join '&' (segs.map Segment.bytes)) = true := by
    apply Qt.isPlainAscii_join '&' _ (by decide)
    intro b hb
    obtain ⟨x, hx1, hx⟩ := List.mem_map.1 hb
    rw [← hx]
    exact hplain x hx1
  rw [create_queryItems, hpath, query_of_path base _ hbase hq,
    env.toQString_of_plain hcodec _ hjoin, splitSkipEmptyParts_join segs hform,
    queryLoop_segments env segs hform hplain]
  rcases hverb with h | h
  · rw [h, if_pos (Or.inr value_get)]
  · rw [h, if_pos (Or.inl value_post)]

/-- Query items of a request whose verb is neither GET nor POST. -/
theorem create_queryItems_other (env : Collaborators) (header : THttpRequestHeader)
    (body address : Bytes)
    (hverb : Qt.toLower header.method ≠ "get".toList ∧ Qt.toLower header.method ≠ "post".toList) :
    (create env header body address).queryItems = [] := by
  rw [create_queryItems, if_neg]
  intro h
  rcases MethodHash.value_cases (Qt.toLower header.method) with c | c | c | c | c | c | c | c | c
  · exact hverb.1 c.1
  · rw [c.2] at h; simp at h
  · exact hverb.2 c.1
  · rw [c.2] at h; simp at h
  · rw [c.2] at h; simp at h
  · rw [c.2] at h; simp at h
  · rw [c.2] at h; simp at h
  · rw [c.2] at h; simp at h
  · rw [c.1] at h; simp at h

/-- Form items of a POST request that is neither multipart nor JSON. -/
theorem create_formItems_urlencoded (env : Collaborators) (header : THttpRequestHeader)
    (body address : Bytes)
    (hpost : Qt.toLower header.method = "post".toList)
    (hmp : Qt.startsWithCI (Qt.trimmed header.contentType) "multipart/form-data".toList = false)
    (hjs : Qt.startsWithCI (Qt.trimmed header.contentType) "application/json".toList = false) :
    (create env header body address).formItems
      = if body.isEmpty then [] else formLoop env (Qt.split '&' body) [] := by
  have hm : method (THttpRequest.mk header [] [] none address) = Tf.HttpMethod.Post := by
    rw [method_of_no_query _ rfl]
    simp only [hpost]
    exact value_post
  unfold create parseBody
  rw [hm]
  simp only []
  rw [parseQuery_formItems]
  unfold parsePost
  simp only [hmp, hjs]
  by_cases hb : body.isEmpty = true <;> simp [hb]

theorem create_formItems_segments (env : Collaborators) (header : THttpRequestHeader)
    (address : Bytes) (segs : List Segment)
    (hpost : Qt.toLower header.method = "post".toList)
    (hmp : Qt.startsWithCI (Qt.trimmed header.contentType) "multipart/form-data".toList = false)
    (hjs : Qt.startsWithCI (Qt.trimmed header.contentType) "application/json".toList = false)
    (hsegs : ∀ s ∈ segs, s.InForm) :
    (create env header (Qt.join '&' (segs.map Segment.bytes)) address).formItems
      = QMap.insertAll [] (segs.map (Segment.decoded env)) := by
  rw [create_formItems_urlencoded env header _ address hpost hmp hjs]
  cases segs with
  | nil => simp [Qt.join, QMap.insertAll]
  | cons s rest =>
    have hne : Qt.join '&' ((s :: rest).map Segment.bytes) ≠ [] := by
      intro h
      rcases Qt.join_eq_nil _ _ h with h1 | h1
      · simp at h1
      · have h2 : s.bytes = [] := by
          simp only [List.map_cons, List.cons.injEq] at h1
          exact h1.1
        exact s.bytes_ne_nil h2
    have hne2 : (Qt.join '&' ((s :: rest).map Segment.bytes)).isEmpty = false := by
      simpa using hne
    rw [hne2]
    simp only [Bool.false_eq_true, if_false]
    rw [Qt.split_join '&' _ (by simp), formLoop_segments env _ hsegs]
    intro b hb
    obtain ⟨x, hx1, hx⟩ := List.mem_map.1 hb
    rw [← hx]
    exact x.amp_not_mem_bytes (hsegs x hx1)

end THttpRequest

/-! ## Method resolution of a request -/

namespace THttpRequest

theorem method_eq_value (r : THttpRequest)
    (hno : ¬ (MethodHash.value (Qt.toLower r.header.method) = Tf.HttpMethod.Post
      ∧ r.hasQueryItem "_method".toList = true
      ∧ MethodHash.contains (r.queryItemValue "_method".toList) = true)) :
    r.method = MethodHash.value (Qt.toLower r.header.method) := by
  unfold method
  by_cases hc : MethodHash.contains (Qt.toLower r.header.method) = true
  · simp only [hc, Bool.not_true, Bool.false_eq_true, if_false]
    by_cases h1 : MethodHash.value (Qt.toLower r.header.method) = Tf.HttpMethod.Post
        ∧ r.hasQueryItem "_method".toList = true
    · rw [if_pos h1]
      have h2 : ¬ MethodHash.contains (r.queryItemValue "_method".toList) = true :=
        fun h => hno ⟨h1.1, h1.2, h⟩
      rw [if_neg h2]
    · rw [if_neg h1]
  · have hc2 : MethodHash.contains (Qt.toLower r.header.method) = false := by simpa using hc
    simp [hc2, MethodHash.value_of_not_contains _ hc2]

theorem method_override (r : THttpRequest) (m : Bytes)
    (hverb : Qt.toLower r.header.method = "post".toList)
    (hvals : r.allQueryItemValues "_method".toList ≠ [])
    (hm : r.queryItemValue "_method".toList = m) (hc : MethodHash.contains m = true) :
    r.method = MethodHash.value m := by
  have h1 : MethodHash.contains "post".toList = true := by decide
  have h3 : r.hasQueryItem "_method".toList = true := by
    unfold hasQueryItem
    rw [QMap.contains_eq]
    unfold allQueryItemValues at hvals
    simpa using hvals
  unfold method
  simp only [hverb, h1, value_post, h3, hm, hc, Bool.not_true, Bool.false_eq_true, if_false,
    and_self, if_true]

end THttpRequest

/-! ## The sample collaborators -/

theorem sampleEnv_decodesAscii : sampleEnv.DecodesAscii :=
  fun _ _ => rfl

/-! ## Method table, parameters and the `_method` override -/

/-- C2: when no `_method` override applies, `method()` is the entry of the
lower-cased header token in the table of the eight names get, head, post,
options, put, delete, trace and patch, and it is `Invalid` for every token
whose lower-case form is none of the eight; the match ignores case, so `GET`,
`Get` and `get` all give `Get`. -/
theorem method_table_lookup (r : THttpRequest)
    (hno : ¬ (MethodHash.value (Qt.toLower r.header.method) = Tf.HttpMethod.Post
      ∧ r.hasQueryItem "_method".toList = true
      ∧ MethodHash.contains (r.queryItemValue "_method".toList) = true)) :
    (Qt.toLower r.header.method = "get".toList → r.method = Tf.HttpMethod.Get)
    ∧ (Qt.toLower r.header.method = "head".toList → r.method = Tf.HttpMethod.Head)
    ∧ (Qt.toLower r.header.method = "post".toList → r.method = Tf.HttpMethod.Post)
    ∧ (Qt.toLower r.header.method = "options".toList → r.method = Tf.HttpMethod.Options)
    ∧ (Qt.toLower r.header.method = "put".toList → r.method = Tf.HttpMethod.Put)
    ∧ (Qt.toLower r.header.method = "delete".toList → r.method = Tf.HttpMethod.Delete)
    ∧ (Qt.toLower r.header.method = "trace".toList → r.method = Tf.HttpMethod.Trace)
    ∧ (Qt.toLower r.header.method = "patch".toList → r.method = Tf.HttpMethod.Patch)
    ∧ (Qt.toLower r.header.method ∉
        ["get".toList, "head".toList, "post".toList, "options".toList, "put".toList,
          "delete".toList, "trace".toList, "patch".toList] → r.method = Tf.HttpMethod.Invalid)
    ∧ (r.header.method ∈ ["GET".toList, "Get".toList, "get".toList] →
        r.method = Tf.HttpMethod.Get) := by
  have hv := THttpRequest.method_eq_value r hno
  refine ⟨?_, ?_, ?_, ?_, ?_, ?_, ?_, ?_, ?_, ?_⟩
  · intro h; rw [hv, h]; decide
  · intro h; rw [hv, h]; decide
  · intro h; rw [hv, h]; decide
  · intro h; rw [hv, h]; decide
  · intro h; rw [hv, h]; decide
  · intro h; rw [hv, h]; decide
  · intro h; rw [hv, h]; decide
  · intro h; rw [hv, h]; decide
  · intro h
    rw [hv]
    rcases MethodHash.value_cases (Qt.toLower r.header.method) with
      c | c | c | c | c | c | c | c | c
    · exact absurd (by simp [c.1]) h
    · exact absurd (by simp [c.1]) h
    · exact absurd (by simp [c.1]) h
    · exact absurd (by simp [c.1]) h
    · exact absurd (by simp [c.1]) h
    · exact absurd (by simp [c.1]) h
    · exact absurd (by simp [c.1]) h
    · exact absurd (by simp [c.1]) h
    · exact c.1
  · intro h
    rw [hv]
    simp only [List.mem_cons, List.mem_singleton, List.not_mem_nil, or_false] at h
    rcases h with h | h | h <;> rw [h] <;> decide

/-- Witness of C2: a request `Get /x`, without query items, resolves to `Get`. -/
theorem method_table_lookup_witness :
    (THttpRequest.create sampleEnv (sampleHeader "Get".toList "/x".toList []) [] []).method
      = Tf.HttpMethod.Get :=
  (method_table_lookup
    (THttpRequest.create sampleEnv (sampleHeader "Get".toList "/x".toList []) [] [])
    (by decide)).2.2.2.2.2.2.2.2.2 (by decide)

/-- C8: `allParameters()` is the query items overlaid by the form items: under
every name the form values come first, followed by the query values, so
`parameter(name)` is `formItemValue(name)` whenever `hasFormItem(name)` holds
and `queryItemValue(name)` otherwise. -/
theorem parameter_form_over_query (r : THttpRequest) (name : Bytes) :
    QMap.values r.allParameters name = r.allFormItemValues name ++ r.allQueryItemValues name
    ∧ r.parameter name
        = if r.hasFormItem name = true then r.formItemValue name else r.queryItemValue name := by
  have hvals : QMap.values r.allParameters name
      = r.allFormItemValues name ++ r.allQueryItemValues name := by
    unfold THttpRequest.allParameters THttpRequest.allFormItemValues
      THttpRequest.allQueryItemValues
    exact QMap.values_unite _ _ _
  refine ⟨hvals, ?_⟩
  unfold THttpRequest.parameter THttpRequest.hasFormItem THttpRequest.formItemValue
    THttpRequest.queryItemValue
  rw [QMap.value_eq_headD, QMap.value_eq_headD, QMap.value_eq_headD, QMap.contains_eq, hvals]
  unfold THttpRequest.allFormItemValues THttpRequest.allQueryItemValues
  cases h : QMap.values r.formItems name with
  | nil => simp
  | cons v rest => simp

/-- C10: the `_method` override reads the query items only.  Requests with the
same header token and the same query items resolve to the same method whatever
their form items are; requests constructed from the same header resolve to the
same method whatever their bodies are; and a POST without a `_method` query
item stays `Post` whatever its body is. -/
theorem method_ignores_form_body :
    (∀ r1 r2 : THttpRequest, r1.header.method = r2.header.method →
        r1.queryItems = r2.queryItems → r1.method = r2.method)
    ∧ (∀ (env : Collaborators) (header : THttpRequestHeader) (body1 body2 addr1 addr2 : Bytes),
        (THttpRequest.create env header body1 addr1).method
          = (THttpRequest.create env header body2 addr2).method)
    ∧ (∀ (env : Collaborators) (header : THttpRequestHeader) (body address : Bytes),
        Qt.toLower header.method = "post".toList →
        (THttpRequest.create env header body address).hasQueryItem "_method".toList = false →
        (THttpRequest.create env header body address).method = Tf.HttpMethod.Post) := by
  refine ⟨THttpRequest.method_congr, ?_, ?_⟩
  · intro env header body1 body2 addr1 addr2
    apply THttpRequest.method_congr
    · rw [THttpRequest.create_header, THttpRequest.create_header]
    · rw [THttpRequest.create_queryItems, THttpRequest.create_queryItems]
  · intro env header body address hverb hq
    rw [THttpRequest.method_eq_value]
    · rw [THttpRequest.create_header, hverb]
      decide
    · rintro ⟨_, h, _⟩
      rw [hq] at h
      exact Bool.false_ne_true h

/-- Witness of C10: a POST to `/x` with the body `_method=delete` is a `Post`. -/
theorem method_ignores_form_body_witness :
    (THttpRequest.create sampleEnv (sampleHeader "POST".toList "/x".toList [])
      "_method=delete".toList []).method = Tf.HttpMethod.Post :=
  method_ignores_form_body.2.2 sampleEnv (sampleHeader "POST".toList "/x".toList [])
    "_method=delete".toList [] (by decide) (by decide)

/-! ## Lists of entries with distinct keys -/

theorem filter_key_of_nodup (l : List (Bytes × Bytes)) (hnd : (l.map Prod.fst).Nodup)
    (e : Bytes × Bytes) (he : e ∈ l) : l.filter (fun x => x.1 = e.1) = [e] := by
  induction l with
  | nil => simp at he
  | cons x rest ih =>
    rw [List.map_cons, List.nodup_cons] at hnd
    rcases List.mem_cons.1 he with h | h
    · subst h
      have hrest : rest.filter (fun x => x.1 = e.1) = [] := by
        rw [List.filter_eq_nil_iff]
        intro y hy hy2
        exact hnd.1 (List.mem_map.2 ⟨y, hy, by simpa using hy2⟩)
      simp [List.filter_cons, hrest]
    · have hx : x.1 ≠ e.1 := by
        intro hx
        exact hnd.1 (List.mem_map.2 ⟨e, h, hx.symm⟩)
      simp [List.filter_cons, hx, ih hnd.2 h]

/-! ## Query items and form items -/

/-- Counterexample to C6: for the URL-encoded POST body `k=v1=v2` the value
stored under `k` is `v1`, not `v1=v2`. -/
theorem form_pair_second_equals_counterexample :
    (THttpRequest.create sampleEnv
        (sampleHeader "POST".toList "/x".toList "application/x-www-form-urlencoded".toList)
        "k=v1=v2".toList []).formItemValue "k".toList = "v1".toList
    ∧ (THttpRequest.create sampleEnv
        (sampleHeader "POST".toList "/x".toList "application/x-www-form-urlencoded".toList)
        "k=v1=v2".toList []).allFormItemValues "k".toList ≠ ["v1=v2".toList] := by
  decide

/-- C6, amended: a URL-encoded POST form pair is split at every `=`; the name
is the text before the first `=`, the value is the URL-decoding of the text
between the first and the second `=`, and whatever follows a second `=` leaves
no trace in the form items: they are the decoded (name, value) entries, the
same as for the body with everything from the second `=` of each pair removed. -/
theorem form_pair_split_at_every_equals (env : Collaborators) (header : THttpRequestHeader)
    (address : Bytes) (segs : List Segment)
    (hpost : Qt.toLower header.method = "post".toList)
    (hmp : Qt.startsWithCI (Qt.trimmed header.contentType) "multipart/form-data".toList = false)
    (hjs : Qt.startsWithCI (Qt.trimmed header.contentType) "application/json".toList = false)
    (hsegs : ∀ s ∈ segs, s.InForm) :
    (THttpRequest.create env header (Qt.join '&' (segs.map Segment.bytes)) address).formItems
      = QMap.insertAll []
          (segs.map (fun s => (env.fromUrlEncoding s.name, env.fromUrlEncoding s.value)))
    ∧ (THttpRequest.create env header (Qt.join '&' (segs.map Segment.bytes)) address).formItems
      = (THttpRequest.create env header
          (Qt.join '&' (segs.map (fun s => s.name ++ '=' :: s.value))) address).formItems := by
  have h1 := THttpRequest.create_formItems_segments env header address segs hpost hmp hjs hsegs
  have hcut : ∀ s ∈ segs.map (fun s => Segment.ofPair (s.name, s.value)), s.InForm := by
    intro s hs
    obtain ⟨x, hx, rfl⟩ := List.mem_map.1 hs
    obtain ⟨a1, a2, a3, a4, a5, _, _⟩ := hsegs x hx
    exact Segment.inForm_ofPair (x.name, x.value) a1 a2 a3 a4 a5
  have h2 := THttpRequest.create_formItems_segments env header address
    (segs.map (fun s => Segment.ofPair (s.name, s.value))) hpost hmp hjs hcut
  have hb : (segs.map (fun s => Segment.ofPair (s.name, s.value))).map Segment.bytes
      = segs.map (fun s => s.name ++ '=' :: s.value) := by
    simp [Segment.ofPair, Segment.bytes]
  have hd : (segs.map (fun s => Segment.ofPair (s.name, s.value))).map (Segment.decoded env)
      = segs.map (Segment.decoded env) := by
    simp [Segment.ofPair, Segment.decoded]
  rw [hb, hd] at h2
  refine ⟨?_, ?_⟩
  · rw [h1]
    rfl
  · rw [h1, h2]

/-- Witness of C6, amended: the body `k=v1=v2` yields the single entry
`k` / `v1`. -/
theorem form_pair_split_at_every_equals_witness :
    (THttpRequest.create sampleEnv
        (sampleHeader "POST".toList "/x".toList "application/x-www-form-urlencoded".toList)
        (Qt.join '&' ([Segment.mk "k".toList "v1".toList "=v2".toList].map Segment.bytes))
        []).formItems
      = QMap.insertAll [] ([Segment.mk "k".toList "v1".toList "=v2".toList].map
          (fun s => (sampleEnv.fromUrlEncoding s.name, sampleEnv.fromUrlEncoding s.value))) :=
  (form_pair_split_at_every_equals sampleEnv
    (sampleHeader "POST".toList "/x".toList "application/x-www-form-urlencoded".toList) []
    [Segment.mk "k".toList "v1".toList "=v2".toList]
    (by decide) (by decide) (by decide) (by decide)).1

namespace Qt

theorem findFrom_succ (sep l : Bytes) (i : Nat) :
    findFrom sep l (i + 1) = (findFrom sep l i).map (fun n => n + 1) := by
  induction l generalizing i with
  | nil => simp [findFrom]
  | cons c cs ih =>
    unfold findFrom
    by_cases h : sep.isPrefixOf (c :: cs) = true
    · simp [h]
    · simp only [h, Bool.false_eq_true, if_false]
      exact ih (i + 1)

theorem isPrefixOf_append_of_le (sep l t : Bytes) (h : sep.length ≤ l.length) :
    sep.isPrefixOf (l ++ t) = sep.isPrefixOf l := by
  rw [Bool.eq_iff_iff, List.isPrefixOf_iff_prefix, List.isPrefixOf_iff_prefix]
  constructor
  · intro hp
    exact List.prefix_of_prefix_length_le hp (List.prefix_append l t) h
  · intro hp
    exact hp.trans (List.prefix_append l t)

theorem findFrom_first (sep head tail : Bytes) (hsep : sep ≠ [])
    (h : findFrom sep (head ++ sep) 0 = some head.length) (k : Nat) :
    findFrom sep (head ++ sep ++ tail) k = some (k + head.length) := by
  induction head generalizing k with
  | nil =>
    cases hs : sep with
    | nil => exact absurd hs hsep
    | cons c cs =>
      have hp : (c :: cs).isPrefixOf (c :: (cs ++ tail)) = true := by
        rw [List.isPrefixOf_iff_prefix]
        exact ⟨tail, rfl⟩
      simp [findFrom, hp]
  | cons c cs ih =>
    have hne : ¬ (sep.isPrefixOf (c :: (cs ++ sep)) = true) := by
      intro hp
      simp [findFrom, hp] at h
    have h2 : findFrom sep (cs ++ sep) 1 = some (cs.length + 1) := by
      simpa [findFrom, hne] using h
    rw [findFrom_succ] at h2
    have h3 : findFrom sep (cs ++ sep) 0 = some cs.length := by
      cases hf : findFrom sep (cs ++ sep) 0 with
      | none => simp [hf] at h2
      | some n =>
        rw [hf] at h2
        simp only [Option.map_some', Option.some.injEq, add_left_inj] at h2
        rw [h2]
    have hne2 : ¬ (sep.isPrefixOf (c :: cs ++ sep ++ tail) = true) := by
      have hl : sep.length ≤ (c :: cs ++ sep).length := by
        simp only [List.cons_append, List.length_cons, List.length_append]
        omega
      rw [isPrefixOf_append_of_le sep (c :: cs ++ sep) tail hl]
      exact hne
    have hstep : findFrom sep (c :: cs ++ sep ++ tail) k
        = findFrom sep (cs ++ sep ++ tail) (k + 1) := by
      have e : c :: cs ++ sep ++ tail = c :: (cs ++ sep ++ tail) := by simp
      rw [e] at hne2 ⊢
      rw [findFrom, if_neg hne2]
    rw [hstep, ih h3 (k + 1)]
    simp only [List.length_cons]
    congr 1
    omega

theorem toInt32_of_nonneg_lt (x : Int) (h0 : 0 ≤ x) (h1 : x < 2147483648) : toInt32 x = x := by
  unfold toInt32
  omega

theorem mid_from (b : Bytes) (n : Nat) (h : n ≤ b.length) : mid b n (-1) = b.drop n := by
  unfold mid
  have h1 : ¬ ((n : Int) > (b.length : Int)) := by omega
  have h2 : ¬ ((n : Int) < 0) := by omega
  simp [h1, h2]

theorem mid_slice (b : Bytes) (n k : Nat) (h : n + k ≤ b.length) :
    mid b n k = (b.drop n).take k := by
  unfold mid
  have h1 : ¬ ((n : Int) > (b.length : Int)) := by omega
  have h2 : ¬ ((n : Int) < 0) := by omega
  have h3 : ¬ ((k : Int) < 0 ∨ (k : Int) > (b.length : Int) - (n : Int)) := by omega
  simp [h1, h2, h3]

theorem indexOf_at_end (b sep : Bytes) (hsep : sep ≠ []) : indexOf b sep b.length = -1 := by
  unfold indexOf
  have hl : 0 < sep.length := List.length_pos.2 hsep
  have h1 : (sep.length : Int) + (b.length : Int) > (b.length : Int) := by omega
  simp [h1]

theorem findFrom_of_indexOf (sep head : Bytes)
    (h : indexOf (head ++ sep) sep 0 = head.length) :
    findFrom sep (head ++ sep) 0 = some head.length := by
  unfold indexOf at h
  have h1 : ¬ ((0 : Int) > ((head ++ sep).length : Int)
      ∨ (sep.length : Int) + 0 > ((head ++ sep).length : Int)) := by
    simp only [List.length_append, Nat.cast_add]
    omega
  simp only [h1, if_false, lt_irrefl, Int.toNat_zero, List.drop_zero] at h
  cases hf : findFrom sep (head ++ sep) 0 with
  | none =>
    rw [hf] at h
    simp only at h
    omega
  | some n =>
    rw [hf] at h
    simp only at h
    congr 1
    omega

theorem indexOf_first (sep pre head tail : Bytes) (hsep : sep ≠ [])
    (h : indexOf (head ++ sep) sep 0 = head.length) :
    indexOf (pre ++ (head ++ sep ++ tail)) sep pre.length
      = ((pre.length + head.length : Nat) : Int) := by
  have hf := findFrom_first sep head tail hsep (findFrom_of_indexOf sep head h) pre.length
  unfold indexOf
  have h1 : ¬ ((pre.length : Int) > ((pre ++ (head ++ sep ++ tail)).length : Int)
      ∨ (sep.length : Int) + (pre.length : Int)
          > ((pre ++ (head ++ sep ++ tail)).length : Int)) := by
    simp only [List.length_append, Nat.cast_add]
    omega
  have h2 : ¬ ((pre.length : Int) < 0) := by omega
  simp only [h1, h2, if_false, Int.toNat_ofNat, List.drop_left, hf]

end Qt

/-! ## Framing of pipelined messages -/

namespace THttpRequest

theorem CRLFCRLF_ne_nil : CRLFCRLF ≠ [] := by decide

theorem CRLFCRLF_length : CRLFCRLF.length = 4 := by decide

theorem generateLoop_step (env : Collaborators) (address pre : Bytes) (m : Message)
    (tail : Bytes) (acc : List THttpRequest) (fuel : Nat) (hhead : m.HeadOk)
    (hlen : (env.parseHeader (m.bytes ++ tail)).contentLength = m.body.length)
    (hsize : (pre ++ (m.bytes ++ tail)).length < 2147483648) :
    generateLoop env (pre ++ (m.bytes ++ tail)) address (fuel + 1) pre.length acc
      = generateLoop env (pre ++ (m.bytes ++ tail)) address fuel
          ((pre ++ m.bytes).length : Nat)
          (acc ++ [create env (env.parseHeader (m.bytes ++ tail)) m.body address]) := by
  have hb : pre ++ (m.bytes ++ tail) = pre ++ (m.head ++ CRLFCRLF ++ (m.body ++ tail)) := by
    simp [Message.bytes]
  have hidx : Qt.indexOf (pre ++ (m.bytes ++ tail)) CRLFCRLF pre.length
      = ((pre.length + m.head.length : Nat) : Int) := by
    rw [hb]
    exact Qt.indexOf_first CRLFCRLF pre m.head (m.body ++ tail) CRLFCRLF_ne_nil hhead.2
  have hpos : 0 < m.head.length := List.length_pos.2 hhead.1
  have htotal : (pre ++ (m.bytes ++ tail)).length
      = pre.length + m.head.length + 4 + m.body.length + tail.length := by
    simp only [Message.bytes, List.length_append, CRLFCRLF_length]
    omega
  have hmid : Qt.mid (pre ++ (m.bytes ++ tail)) pre.length (-1) = m.bytes ++ tail := by
    rw [Qt.mid_from _ _ (by simp)]
    simp
  have hbody : Qt.mid (pre ++ (m.bytes ++ tail))
      (((pre.length + m.head.length : Nat) : Int) + 4) (m.body.length : Int) = m.body := by
    have e : (((pre.length + m.head.length : Nat) : Int) + 4)
        = ((pre.length + m.head.length + 4 : Nat) : Int) := by push_cast; ring
    rw [e, Qt.mid_slice _ _ _ (by rw [htotal]; omega)]
    have hsplit : pre ++ (m.bytes ++ tail) = (pre ++ m.head ++ CRLFCRLF) ++ (m.body ++ tail) := by
      simp [Message.bytes]
    have hl : (pre ++ m.head ++ CRLFCRLF).length = pre.length + m.head.length + 4 := by
      simp only [List.length_append, CRLFCRLF_length]
    rw [hsplit, ← hl, List.drop_left, List.take_left]
  have hnext : Qt.toInt32 (((pre.length + m.head.length : Nat) : Int) + 4 + (m.body.length : Int))
      = (((pre ++ m.bytes).length : Nat) : Int) := by
    have e : (pre ++ m.bytes).length = pre.length + m.head.length + 4 + m.body.length := by
      simp only [Message.bytes, List.length_append, CRLFCRLF_length]
      omega
    rw [Qt.toInt32_of_nonneg_lt _ (by omega) (by rw [htotal] at hsize; omega), e]
    push_cast
    ring
  have hgt : ((pre.length + m.head.length : Nat) : Int) > 0 := by omega
  rw [generateLoop]
  simp only [hidx, hgt, if_true, hmid, hlen, hnext]
  by_cases hz : m.body = []
  · simp [hz]
  · have hz2 : ¬ ((m.body.length : Int) ≤ 0) := by
      have := List.length_pos.2 hz
      omega
    simp only [hz2, if_false, hbody]

theorem generateLoop_stream (env : Collaborators) (address : Bytes) (msgs : List Message) :
    ∀ (pre : Bytes) (acc : List THttpRequest) (fuel : Nat), msgs.length < fuel →
      (pre ++ Message.stream msgs).length < 2147483648 → Message.Framed env msgs →
      generateLoop env (pre ++ Message.stream msgs) address fuel pre.length acc
        = some (acc ++ Message.requests env address msgs) := by
  induction msgs with
  | nil =>
    intro pre acc fuel hfuel _ _
    cases fuel with
    | zero => simp at hfuel
    | succ f =>
      simp only [Message.stream, List.append_nil, Message.requests]
      rw [generateLoop]
      simp [Qt.indexOf_at_end pre CRLFCRLF CRLFCRLF_ne_nil]
  | cons m rest ih =>
    intro pre acc fuel hfuel hsize hframed
    cases fuel with
    | zero => simp at hfuel
    | succ f =>
      obtain ⟨hhead, hlen, hrest⟩ := hframed
      simp only [Message.stream] at hsize hlen ⊢
      rw [generateLoop_step env address pre m (Message.stream rest) acc f hhead hlen hsize]
      have hassoc : pre ++ (m.bytes ++ Message.stream rest)
          = (pre ++ m.bytes) ++ Message.stream rest := by simp
      rw [hassoc] at hsize ⊢
      rw [ih (pre ++ m.bytes) _ f (by simpa using hfuel) hsize hrest]
      simp [Message.requests, Message.stream]

theorem generate_framed (env : Collaborators) (address : Bytes) (msgs : List Message)
    (fuel : Nat) (hfuel : msgs.length < fuel)
    (hsize : (Message.stream msgs).length < 2147483648) (hframed : Message.Framed env msgs) :
    generate env fuel (Message.stream msgs) address
      = some (Message.requests env address msgs) := by
  have h := generateLoop_stream env address msgs [] [] fuel hfuel (by simpa using hsize) hframed
  simpa [generate] using h

end THttpRequest

/-! ## The sample header parser -/

theorem sampleParseHeader_block (head rest : Bytes) (h : (Message.mk head []).HeadOk) :
    (head ++ THttpRequest.CRLFCRLF ++ rest).take
      (Qt.indexOf (head ++ THttpRequest.CRLFCRLF ++ rest) THttpRequest.CRLFCRLF 0).toNat
      = head := by
  have hidx := Qt.indexOf_first THttpRequest.CRLFCRLF [] head rest
    THttpRequest.CRLFCRLF_ne_nil h.2
  simp only [List.nil_append, List.length_nil, Nat.cast_zero, zero_add] at hidx
  rw [hidx, Int.toNat_ofNat, List.append_assoc, List.take_left]

theorem sampleEnv_headerLocal : sampleEnv.HeaderLocal := by
  intro head rest h
  have h1 := sampleParseHeader_block head rest h
  have h2 := sampleParseHeader_block head [] h
  rw [List.append_nil] at h2
  show sampleParseHeader _ = sampleParseHeader _
  unfold sampleParseHeader
  simp only [h1, h2]

/-! ## Message framing -/

/-- C1: for a buffer that is the concatenation of N well-formed request
messages (each a non-empty header block, its first CRLFCRLF, and exactly
content-length body bytes, which may contain CRLFCRLF), `generate` returns N
requests in the order of the messages, the i-th built from the header of the
i-th message and from exactly its body bytes.  The header parser is assumed to
read the header block only. -/
theorem generate_pipelined (env : Collaborators) (address : Bytes) (msgs : List Message)
    (fuel : Nat) (hlocal : env.HeaderLocal) (hwf : ∀ m ∈ msgs, m.WellFormed env)
    (hsize : (Message.stream msgs).length < 2147483648) (hfuel : msgs.length < fuel) :
    THttpRequest.generate env fuel (Message.stream msgs) address
      = some (msgs.map (fun m => THttpRequest.create env
          (env.parseHeader (m.head ++ THttpRequest.CRLFCRLF)) m.body address)) := by
  have hparse : ∀ (m : Message) (rest : List Message), m.HeadOk →
      env.parseHeader (Message.stream (m :: rest))
        = env.parseHeader (m.head ++ THttpRequest.CRLFCRLF) := by
    intro m rest hm
    have e : Message.stream (m :: rest)
        = m.head ++ THttpRequest.CRLFCRLF ++ (m.body ++ Message.stream rest) := by
      simp [Message.stream, Message.bytes]
    rw [e]
    exact hlocal m.head _ hm
  have hframed : ∀ l : List Message, (∀ m ∈ l, m.WellFormed env) →
      Message.Framed env l ∧ Message.requests env address l
        = l.map (fun m => THttpRequest.create env
            (env.parseHeader (m.head ++ THttpRequest.CRLFCRLF)) m.body address) := by
    intro l
    induction l with
    | nil => intro _; exact ⟨trivial, rfl⟩
    | cons m rest ih =>
      intro hl
      obtain ⟨hm1, hm2⟩ := hl m (by simp)
      obtain ⟨ih1, ih2⟩ := ih (fun x hx => hl x (by simp [hx]))
      refine ⟨⟨hm1, ?_, ih1⟩, ?_⟩
      · rw [hparse m rest hm1]
        exact hm2
      · rw [Message.requests, hparse m rest hm1, ih2, List.map_cons]
  obtain ⟨h1, h2⟩ := hframed msgs hwf
  rw [THttpRequest.generate_framed env address msgs fuel hfuel hsize h1, h2]

/-- Witness of C1: two pipelined messages, the first with a four-byte body that
is itself a CRLFCRLF, give two requests. -/
theorem generate_pipelined_witness :
    THttpRequest.generate sampleEnv 3
        (Message.stream [Message.mk "GET /a H\r\nL:xxxx".toList "\r\n\r\n".toList,
          Message.mk "POST /b H".toList []]) []
      = some ([Message.mk "GET /a H\r\nL:xxxx".toList "\r\n\r\n".toList,
          Message.mk "POST /b H".toList []].map (fun m => THttpRequest.create sampleEnv
            (sampleEnv.parseHeader (m.head ++ THttpRequest.CRLFCRLF)) m.body [])) :=
  generate_pipelined sampleEnv []
    [Message.mk "GET /a H\r\nL:xxxx".toList "\r\n\r\n".toList,
      Message.mk "POST /b H".toList []] 3
    sampleEnv_headerLocal (by decide) (by decide) (by decide)

/-! ## The multipart boundary -/

namespace Qt

theorem dropWhile_congr (p q : Char → Bool) (l : Bytes) (h : ∀ c ∈ l, p c = q c) :
    l.dropWhile p = l.dropWhile q := by
  induction l with
  | nil => rfl
  | cons c cs ih =>
    rw [List.dropWhile_cons, List.dropWhile_cons, h c (by simp)]
    cases q c
    · rfl
    · exact ih (fun x hx => h x (by simp [hx]))

theorem isSpaceQChar_of_ascii (c : Char) (h : c.toNat < 128) : isSpaceQChar c = isSpace c := by
  unfold isSpaceQChar
  have h1 : decide (c.toNat = 0x85) = false := decide_eq_false (by omega)
  have h2 : decide (c.toNat = 0xA0) = false := decide_eq_false (by omega)
  have h3 : decide (c.toNat = 0x1680) = false := decide_eq_false (by omega)
  have h4 : decide (0x2000 ≤ c.toNat) = false := decide_eq_false (by omega)
  have h5 : decide (c.toNat = 0x2028) = false := decide_eq_false (by omega)
  have h6 : decide (c.toNat = 0x2029) = false := decide_eq_false (by omega)
  have h7 : decide (c.toNat = 0x202F) = false := decide_eq_false (by omega)
  have h8 : decide (c.toNat = 0x205F) = false := decide_eq_false (by omega)
  have h9 : decide (c.toNat = 0x3000) = false := decide_eq_false (by omega)
  rw [h1, h2, h3, h4, h5, h6, h7, h8, h9]
  simp

theorem mem_of_mem_trimmed (s : Bytes) (c : Char) (h : c ∈ trimmed s) : c ∈ s := by
  unfold trimmed at h
  rw [List.mem_reverse] at h
  have h1 := (List.dropWhile_sublist isSpace).subset h
  rw [List.mem_reverse] at h1
  exact (List.dropWhile_sublist isSpace).subset h1

theorem isPlainAscii_trimmed (s : Bytes) (h : isPlainAscii s = true) :
    isPlainAscii (trimmed s) = true :=
  isPlainAscii_of_subset _ s h (mem_of_mem_trimmed s)

theorem trimmedQString_of_plain (s : Bytes) (h : isPlainAscii s = true) :
    trimmedQString s = trimmed s := by
  have hq : ∀ c ∈ s, isSpaceQChar c = isSpace c := fun c hc =>
    isSpaceQChar_of_ascii c (mem_of_isPlainAscii s h c hc).2
  unfold trimmedQString trimmed
  rw [dropWhile_congr isSpaceQChar isSpace s hq]
  rw [dropWhile_congr isSpaceQChar isSpace (s.dropWhile isSpace).reverse]
  intro c hc
  rw [List.mem_reverse] at hc
  exact hq c ((List.dropWhile_sublist isSpace).subset hc)

end Qt

namespace THttpRequest

theorem boundaryLoop_skipEmpty (l : List Bytes) :
    boundaryLoop (l.filter (fun p => !p.isEmpty)) = boundaryLoop l := by
  induction l with
  | nil => rfl
  | cons s rest ih =>
    cases s with
    | nil =>
      have h0 : Qt.startsWithCI (Qt.trimmedQString []) "boundary=".toList = false := by decide
      have h1 : boundaryLoop ([] :: rest) = boundaryLoop rest := by
        rw [boundaryLoop]
        simp only [h0, Bool.false_eq_true, if_false]
      rw [h1, ← ih]
      simp
    | cons c cs =>
      have hf : (List.filter (fun p => !p.isEmpty) ((c :: cs) :: rest))
          = (c :: cs) :: List.filter (fun p => !p.isEmpty) rest := by
        simp
      rw [hf, boundaryLoop, boundaryLoop, ih]

/-- On segments of plain ASCII the loop finds the first segment that, trimmed,
starts with `boundary=`. -/
theorem boundaryLoop_plain (l : List Bytes) (h : ∀ p ∈ l, Qt.isPlainAscii p = true) :
    boundaryLoop l
      = match (l.map Qt.trimmed).find? (fun s => Qt.startsWithCI s "boundary=".toList) with
        | some s => "--".toList ++ s.drop 9
        | none => [] := by
  induction l with
  | nil => rfl
  | cons s rest ih =>
    have hs := h s (by simp)
    have ht := Qt.trimmedQString_of_plain s hs
    have hl : Qt.toLatin1 ((Qt.trimmed s).drop 9) = (Qt.trimmed s).drop 9 := by
      apply Qt.toLatin1_of_plain
      apply Qt.isPlainAscii_of_subset _ s hs
      intro c hc
      exact Qt.mem_of_mem_trimmed s c ((List.drop_sublist 9 _).subset hc)
    rw [boundaryLoop, List.map_cons, List.find?_cons]
    simp only [ht, hl]
    by_cases hb : Qt.startsWithCI (Qt.trimmed s) "boundary=".toList = true
    · simp only [hb, if_true]
    · have h2 : Qt.startsWithCI (Qt.trimmed s) "boundary=".toList = false := by simpa using hb
      simp only [h2, Bool.false_eq_true, if_false]
      exact ih (fun x hx => h x (by simp [hx]))

/-- On a plain ASCII header value `boundary()` reads the trimmed value itself. -/
theorem boundary_plain (env : Collaborators) (r : THttpRequest) (hcodec : env.DecodesAscii)
    (hplain : Qt.isPlainAscii (r.header.rawHeader "content-type".toList) = true) :
    boundary env r
      = if Qt.startsWithCI (Qt.trimmed (r.header.rawHeader "content-type".toList))
            "multipart/form-data".toList = true then
          match ((Qt.split ';' (Qt.trimmed (r.header.rawHeader "content-type".toList))).map
              Qt.trimmed).find? (fun s => Qt.startsWithCI s "boundary=".toList) with
          | some s => "--".toList ++ s.drop 9
          | none => []
        else [] := by
  have ht := Qt.isPlainAscii_trimmed _ hplain
  unfold boundary
  simp only [env.toQString_of_plain hcodec _ ht]
  unfold Qt.splitSkipEmptyParts
  rw [boundaryLoop_skipEmpty, boundaryLoop_plain]
  intro p hp
  exact Qt.isPlainAscii_of_mem_split ';' _ p hp ht

end THttpRequest

/-- Counterexample to C9: the trimmed header value
`multipart/form-data; a`, 0 byte, `b; boundary=abc` starts with
`multipart/form-data` and its third `;`-separated segment, trimmed, starts with
`boundary=`, yet `boundary()` is empty: the conversion of the value to a
`QString` stops at the 0 byte. -/
theorem boundary_after_nul_counterexample :
    Qt.startsWithCI (Qt.trimmed "multipart/form-data; a\x00b; boundary=abc".toList)
      "multipart/form-data".toList = true
    ∧ ((Qt.split ';' (Qt.trimmed "multipart/form-data; a\x00b; boundary=abc".toList)).map
        Qt.trimmed).find? (fun s => Qt.startsWithCI s "boundary=".toList)
      = some "boundary=abc".toList
    ∧ THttpRequest.boundary sampleEnv (THttpRequest.create sampleEnv
        (sampleHeader "POST".toList "/x".toList
          "multipart/form-data; a\x00b; boundary=abc".toList) [] []) = []
    ∧ THttpRequest.boundary sampleEnv (THttpRequest.create sampleEnv
        (sampleHeader "POST".toList "/x".toList
          "multipart/form-data; a\x00b; boundary=abc".toList) [] []) ≠ "--abc".toList := by
  decide

/-- C9, amended: for every content-type header value of 7-bit ASCII without
the 0 byte: when the trimmed value starts, ignoring case, with
`multipart/form-data` and one of its `;`-separated segments, trimmed, starts,
ignoring case, with `boundary=`, `boundary()` is `--` followed by the text
after `boundary=` of the first such segment; when the content type is not
`multipart/form-data`, or no segment carries `boundary=`, `boundary()` is
empty. -/
theorem boundary_extraction (env : Collaborators) (r : THttpRequest)
    (hcodec : env.DecodesAscii)
    (hplain : Qt.isPlainAscii (r.header.rawHeader "content-type".toList) = true) :
    (Qt.startsWithCI (Qt.trimmed (r.header.rawHeader "content-type".toList))
        "multipart/form-data".toList = true →
      ∀ seg, ((Qt.split ';' (Qt.trimmed (r.header.rawHeader "content-type".toList))).map
          Qt.trimmed).find? (fun s => Qt.startsWithCI s "boundary=".toList) = some seg →
        THttpRequest.boundary env r = "--".toList ++ seg.drop 9)
    ∧ ((Qt.startsWithCI (Qt.trimmed (r.header.rawHeader "content-type".toList))
          "multipart/form-data".toList = false
        ∨ ∀ seg ∈ Qt.split ';' (Qt.trimmed (r.header.rawHeader "content-type".toList)),
            Qt.startsWithCI (Qt.trimmed seg) "boundary=".toList = false) →
      THttpRequest.boundary env r = []) := by
  have hb := THttpRequest.boundary_plain env r hcodec hplain
  refine ⟨?_, ?_⟩
  · intro hmp seg hseg
    rw [hb, if_pos hmp, hseg]
  · intro h
    rw [hb]
    by_cases hmp : Qt.startsWithCI (Qt.trimmed (r.header.rawHeader "content-type".toList))
        "multipart/form-data".toList = true
    · rw [if_pos hmp]
      rcases h with h | h
      · rw [hmp] at h
        exact absurd h (by simp)
      · rw [List.find?_eq_none.2]
        intro s hs
        obtain ⟨x, hx, rfl⟩ := List.mem_map.1 hs
        rw [h x hx]
        exact Bool.false_ne_true
    · rw [if_neg hmp]

/-- Witness of C9, amended: `multipart/form-data; boundary=abc` gives `--abc`. -/
theorem boundary_extraction_witness :
    THttpRequest.boundary sampleEnv (THttpRequest.create sampleEnv
        (sampleHeader "POST".toList "/x".toList "multipart/form-data; boundary=abc".toList)
        [] []) = "--".toList ++ "boundary=abc".toList.drop 9 :=
  (boundary_extraction sampleEnv (THttpRequest.create sampleEnv
      (sampleHeader "POST".toList "/x".toList "multipart/form-data; boundary=abc".toList)
      [] []) sampleEnv_decodesAscii (by decide)).1 (by decide) "boundary=abc".toList
    (by decide)


/-! ## Array-style lookup of form items -/

namespace Qt

theorem endsWith_append_self (k s : Bytes) : endsWith (k ++ s) s = true := by
  unfold endsWith
  rw [List.reverse_append, List.isPrefixOf_iff_prefix]
  exact List.prefix_append _ _

end Qt

namespace THttpRequest

theorem formItemListKey_of_endsWith (key : Bytes) (h : Qt.endsWith key "[]".toList = true) :
    formItemListKey key = key := by
  unfold formItemListKey
  rw [h]
  rfl

theorem formItemListKey_of_not_endsWith (key : Bytes)
    (h : Qt.endsWith key "[]".toList = false) :
    formItemListKey key = key ++ "[]".toList := by
  unfold formItemListKey
  rw [h]
  rfl

end THttpRequest

/-- C19: `formItemList(key)` is `allFormItemValues(key')`, where `key'` is
`key` itself when `key` ends with `[]` and `key` followed by `[]` otherwise;
hence `formItemList(k)` equals `formItemList(k + "[]")` for every `k` that
does not end with `[]`, and normalising a key twice is the same as
normalising it once. -/
theorem formItemList_normalises (r : THttpRequest) (key : Bytes) :
    r.formItemList key
      = r.allFormItemValues
          (if Qt.endsWith key "[]".toList = true then key else key ++ "[]".toList)
    ∧ (Qt.endsWith key "[]".toList = false →
        r.formItemList key = r.formItemList (key ++ "[]".toList))
    ∧ THttpRequest.formItemListKey (THttpRequest.formItemListKey key)
        = THttpRequest.formItemListKey key := by
  refine ⟨?_, ?_, ?_⟩
  · unfold THttpRequest.formItemList
    by_cases h : Qt.endsWith key "[]".toList = true
    · rw [THttpRequest.formItemListKey_of_endsWith key h, if_pos h]
    · have h2 : Qt.endsWith key "[]".toList = false := by simpa using h
      rw [THttpRequest.formItemListKey_of_not_endsWith key h2, if_neg h]
  · intro h
    unfold THttpRequest.formItemList
    rw [THttpRequest.formItemListKey_of_not_endsWith key h,
      THttpRequest.formItemListKey_of_endsWith _ (Qt.endsWith_append_self key _)]
  · by_cases h : Qt.endsWith key "[]".toList = true
    · rw [THttpRequest.formItemListKey_of_endsWith key h,
        THttpRequest.formItemListKey_of_endsWith key h]
    · have h2 : Qt.endsWith key "[]".toList = false := by simpa using h
      rw [THttpRequest.formItemListKey_of_not_endsWith key h2,
        THttpRequest.formItemListKey_of_endsWith _ (Qt.endsWith_append_self key _)]

/-- Witness of C19: for a POST with the body `a[]=1&a[]=2` the lists of `a`
and of `a[]` are the same. -/
theorem formItemList_normalises_witness :
    (THttpRequest.create sampleEnv (sampleHeader "POST".toList "/x".toList [])
        "a[]=1&a[]=2".toList []).formItemList "a".toList
      = (THttpRequest.create sampleEnv (sampleHeader "POST".toList "/x".toList [])
        "a[]=1&a[]=2".toList []).formItemList ("a".toList ++ "[]".toList) :=
  (formItemList_normalises (THttpRequest.create sampleEnv
      (sampleHeader "POST".toList "/x".toList []) "a[]=1&a[]=2".toList []) "a".toList).2.1
    (by decide)

/-! ## The two loops over pairs -/

namespace THttpRequest

/-- On pairs of plain ASCII the query loop does what the form loop does. -/
theorem queryLoop_eq_formLoop (env : Collaborators) (l : List Bytes)
    (h : ∀ p ∈ l, Qt.isPlainAscii p = true) (items : QVariantMap) :
    queryLoop env l items = formLoop env l items := by
  induction l generalizing items with
  | nil => rfl
  | cons p rest ih =>
    have hp := h p (by simp)
    have l0 := Qt.toLatin1_of_plain _ (Qt.isPlainAscii_value_split '=' p 0 hp)
    have l1 := Qt.toLatin1_of_plain _ (Qt.isPlainAscii_value_split '=' p 1 hp)
    have hrest := ih (fun x hx => h x (by simp [hx]))
    rw [formLoop, queryLoop]
    simp only [l0, l1, hrest]

theorem name_isEmpty (p : Bytes) :
    (Qt.value (Qt.split '=' p) 0).isEmpty = !namedPair p := by
  cases p with
  | nil => rfl
  | cons c cs =>
    by_cases h : c = '='
    · simp [Qt.split, Qt.value, namedPair, h]
    · rw [Qt.split]
      simp only [h, if_false]
      cases hs : Qt.split '=' cs with
      | nil => simp [Qt.value, namedPair, h]
      | cons q qs => simp [Qt.value, namedPair, h]

theorem queryLoop_skip (env : Collaborators) (p : Bytes) (rest : List Bytes)
    (items : QVariantMap) (h : namedPair p = false) :
    queryLoop env (p :: rest) items = queryLoop env rest items := by
  have h2 : (Qt.value (Qt.split '=' p) 0).isEmpty = true := by
    rw [name_isEmpty, h]
    rfl
  rw [queryLoop]
  simp [h2]

theorem formLoop_skip (env : Collaborators) (p : Bytes) (rest : List Bytes)
    (items : QVariantMap) (h : namedPair p = false) :
    formLoop env (p :: rest) items = formLoop env rest items := by
  have h2 : (Qt.value (Qt.split '=' p) 0).isEmpty = true := by
    rw [name_isEmpty, h]
    rfl
  rw [formLoop]
  simp [h2]

theorem queryLoop_filter_named (env : Collaborators) (l : List Bytes) (items : QVariantMap) :
    queryLoop env (l.filter namedPair) items = queryLoop env l items := by
  induction l generalizing items with
  | nil => rfl
  | cons p rest ih =>
    by_cases h : namedPair p = true
    · rw [List.filter_cons_of_pos h, queryLoop, queryLoop]
      simp only [ih]
    · have h2 : namedPair p = false := by simpa using h
      rw [List.filter_cons_of_neg h, queryLoop_skip env p rest items h2, ih]

theorem formLoop_filter_named (env : Collaborators) (l : List Bytes) (items : QVariantMap) :
    formLoop env (l.filter namedPair) items = formLoop env l items := by
  induction l generalizing items with
  | nil => rfl
  | cons p rest ih =>
    by_cases h : namedPair p = true
    · rw [List.filter_cons_of_pos h, formLoop, formLoop]
      simp only [ih]
    · have h2 : namedPair p = false := by simpa using h
      rw [List.filter_cons_of_neg h, formLoop_skip env p rest items h2, ih]

theorem queryLoop_filter_nonempty (env : Collaborators) (l : List Bytes) (items : QVariantMap) :
    queryLoop env (l.filter (fun p => !p.isEmpty)) items = queryLoop env l items := by
  induction l generalizing items with
  | nil => rfl
  | cons p rest ih =>
    cases p with
    | nil =>
      have h1 : List.filter (fun p => !p.isEmpty) (([] : Bytes) :: rest)
          = List.filter (fun p => !p.isEmpty) rest := by simp
      rw [h1, queryLoop_skip env [] rest items rfl, ih]
    | cons c cs =>
      have h1 : List.filter (fun p => !p.isEmpty) ((c :: cs) :: rest)
          = (c :: cs) :: List.filter (fun p => !p.isEmpty) rest := by simp
      rw [h1, queryLoop, queryLoop]
      simp only [ih]

/-- Form items of a URL-encoded POST, whatever the body. -/
theorem create_formItems_loop (env : Collaborators) (header : THttpRequestHeader)
    (body address : Bytes)
    (hpost : Qt.toLower header.method = "post".toList)
    (hmp : Qt.startsWithCI (Qt.trimmed header.contentType) "multipart/form-data".toList = false)
    (hjs : Qt.startsWithCI (Qt.trimmed header.contentType) "application/json".toList = false) :
    (create env header body address).formItems = formLoop env (Qt.split '&' body) [] := by
  rw [create_formItems_urlencoded env header body address hpost hmp hjs]
  cases body with
  | nil => rfl
  | cons c cs => rfl

/-- Form items of a URL-encoded POST whose body is a list of pieces joined
with `&`. -/
theorem create_formItems_join (env : Collaborators) (header : THttpRequestHeader)
    (address : Bytes) (segs : List Bytes)
    (hpost : Qt.toLower header.method = "post".toList)
    (hmp : Qt.startsWithCI (Qt.trimmed header.contentType) "multipart/form-data".toList = false)
    (hjs : Qt.startsWithCI (Qt.trimmed header.contentType) "application/json".toList = false)
    (hsegs : ∀ p ∈ segs, '&' ∉ p) :
    (create env header (Qt.join '&' segs) address).formItems = formLoop env segs [] := by
  rw [create_formItems_loop env header _ address hpost hmp hjs]
  cases segs with
  | nil => rfl
  | cons p rest => rw [Qt.split_join '&' _ (by simp) hsegs]

/-- Query items of a request whose path holds, after the first `?`, plain
ASCII text without a further `?`. -/
theorem create_queryItems_plain (env : Collaborators) (header : THttpRequestHeader)
    (body address base q : Bytes)
    (hpath : header.path = base ++ '?' :: q) (hbase : '?' ∉ base) (hq : '?' ∉ q)
    (hcodec : env.DecodesAscii) (hplain : Qt.isPlainAscii q = true) :
    (create env header body address).queryItems
      = if MethodHash.value (Qt.toLower header.method) = Tf.HttpMethod.Post
            ∨ MethodHash.value (Qt.toLower header.method) = Tf.HttpMethod.Get then
          queryLoop env (Qt.split '&' q) []
        else [] := by
  rw [create_queryItems, hpath, query_of_path base _ hbase hq,
    env.toQString_of_plain hcodec _ hplain]
  unfold Qt.splitSkipEmptyParts
  rw [queryLoop_filter_nonempty]

/-- Query items of a request whose path ends in a list of plain ASCII pieces
joined with `&`. -/
theorem create_queryItems_join (env : Collaborators) (header : THttpRequestHeader)
    (body address base : Bytes) (segs : List Bytes)
    (hpath : header.path = base ++ '?' :: Qt.join '&' segs) (hbase : '?' ∉ base)
    (hamp : ∀ p ∈ segs, '&' ∉ p) (hq : ∀ p ∈ segs, '?' ∉ p)
    (hcodec : env.DecodesAscii) (hplain : ∀ p ∈ segs, Qt.isPlainAscii p = true) :
    (create env header body address).queryItems
      = if MethodHash.value (Qt.toLower header.method) = Tf.HttpMethod.Post
            ∨ MethodHash.value (Qt.toLower header.method) = Tf.HttpMethod.Get then
          queryLoop env segs []
        else [] := by
  have hj : '?' ∉ Qt.join '&' segs := Qt.not_mem_join _ _ _ (by decide) hq
  have hp : Qt.isPlainAscii (Qt.join '&' segs) = true :=
    Qt.isPlainAscii_join '&' segs (by decide) hplain
  rw [create_queryItems_plain env header body address base _ hpath hbase hj hcodec hp]
  cases segs with
  | nil => rfl
  | cons p rest => rw [Qt.split_join '&' _ (by simp) hamp]

end THttpRequest

/-! ## Content types of a POST -/

namespace THttpRequest

theorem json_not_multipart (ct : Bytes)
    (h : Qt.startsWithCI ct "application/json".toList = true) :
    Qt.startsWithCI ct "multipart/form-data".toList = false := by
  have e1 : Qt.toLower "application/json".toList = 'a' :: "pplication/json".toList := by decide
  have e2 : Qt.toLower "multipart/form-data".toList = 'm' :: "ultipart/form-data".toList := by
    decide
  unfold Qt.startsWithCI at h ⊢
  rw [e1] at h
  rw [e2]
  cases hct : Qt.toLower ct with
  | nil => rfl
  | cons c cs =>
    rw [hct] at h
    have hc : c = 'a' := by
      by_cases hc : c = 'a'
      · exact hc
      · have hc2 : ('a' == c) = false := by simpa using fun e => hc e.symm
        simp [List.isPrefixOf, hc2] at h
    rw [hc]
    simp [List.isPrefixOf]

/-- A POST whose content type starts with `application/json`: the form items
stay empty and the body goes to the JSON parser. -/
theorem create_json (env : Collaborators) (header : THttpRequestHeader) (body address : Bytes)
    (hpost : Qt.toLower header.method = "post".toList)
    (hjs : Qt.startsWithCI (Qt.trimmed header.contentType) "application/json".toList = true) :
    (create env header body address).formItems = []
    ∧ (create env header body address).jsonData = env.fromJson body := by
  have hm : method (THttpRequest.mk header [] [] none address) = Tf.HttpMethod.Post := by
    rw [method_of_no_query _ rfl]
    simp only [hpost]
    exact value_post
  have hmp := json_not_multipart _ hjs
  have hp : parsePost env (THttpRequest.mk header [] [] none address) body header
      = THttpRequest.mk header [] [] (env.fromJson body) address := by
    unfold parsePost
    simp only [hmp, hjs, Bool.false_eq_true, if_false, if_true]
  have hc : create env header body address
      = parseQuery env (THttpRequest.mk header [] [] (env.fromJson body) address) := by
    unfold create parseBody
    rw [hm]
    simp only []
    rw [hp]
  rw [hc]
  refine ⟨by rw [parseQuery_formItems], ?_⟩
  unfold parseQuery
  simp only []
  split_ifs <;> rfl

end THttpRequest

/-- C16: for every POST whose trimmed content type starts, ignoring case, with
`application/json`, whatever the body is, the constructor returns a request
with empty form items (the body is handed to the JSON parser and never
URL-decoded), and its query items are the ones of a GET of the same path. -/
theorem json_post_keeps_query (env : Collaborators) (header getHeader : THttpRequestHeader)
    (body address getBody getAddress : Bytes)
    (hpost : Qt.toLower header.method = "post".toList)
    (hjs : Qt.startsWithCI (Qt.trimmed header.contentType) "application/json".toList = true)
    (hget : Qt.toLower getHeader.method = "get".toList)
    (hpath : getHeader.path = header.path) :
    (THttpRequest.create env header body address).formItems = []
    ∧ (THttpRequest.create env header body address).jsonData = env.fromJson body
    ∧ (THttpRequest.create env header body address).queryItems
        = (THttpRequest.create env getHeader getBody getAddress).queryItems := by
  obtain ⟨h1, h2⟩ := THttpRequest.create_json env header body address hpost hjs
  refine ⟨h1, h2, ?_⟩
  rw [THttpRequest.create_queryItems, THttpRequest.create_queryItems, hpost, hget, hpath,
    if_pos (Or.inl THttpRequest.value_post), if_pos (Or.inr THttpRequest.value_get)]

/-- Witness of C16: a JSON POST to `/x?a=1` with a body that is not JSON has
the query items of `GET /x?a=1`. -/
theorem json_post_keeps_query_witness :
    (THttpRequest.create sampleEnv
        (sampleHeader "POST".toList "/x?a=1".toList "Application/JSON; charset=utf-8".toList)
        "not json".toList []).queryItems
      = (THttpRequest.create sampleEnv (sampleHeader "GET".toList "/x?a=1".toList [])
        [] []).queryItems :=
  (json_post_keeps_query sampleEnv
    (sampleHeader "POST".toList "/x?a=1".toList "Application/JSON; charset=utf-8".toList)
    (sampleHeader "GET".toList "/x?a=1".toList []) "not json".toList [] [] []
    (by decide) (by decide) (by decide) (by decide)).2.2

/-- Counterexample to C17: the ASCII string `a=1`, 0 byte, `&b=2` has no `?`,
yet as a POST body it gives the form items `a` and `b` and as the query of
`GET /p?...` only the item `a`: the conversion of the query to a `QString`
stops at the 0 byte.  And for the body `a=1` the form items hold `a`, while a
PUT of `/p?a=1` has no query items at all. -/
theorem form_and_query_disagree_counterexample :
    (∀ c ∈ "a=1\x00&b=2".toList, c.toNat < 128) ∧ '?' ∉ "a=1\x00&b=2".toList
    ∧ (THttpRequest.create sampleEnv
        (sampleHeader "POST".toList "/f".toList "application/x-www-form-urlencoded".toList)
        "a=1\x00&b=2".toList []).formItems
      = [("a".toList, "1\x00".toList), ("b".toList, "2".toList)]
    ∧ (THttpRequest.create sampleEnv
        (sampleHeader "GET".toList ("/p?".toList ++ "a=1\x00&b=2".toList) [])
        [] []).queryItems = [("a".toList, "1".toList)]
    ∧ (THttpRequest.create sampleEnv
        (sampleHeader "POST".toList "/f".toList "application/x-www-form-urlencoded".toList)
        "a=1".toList []).formItems = [("a".toList, "1".toList)]
    ∧ (THttpRequest.create sampleEnv
        (sampleHeader "PUT".toList ("/p?".toList ++ "a=1".toList) []) [] []).queryItems
      = [] := by
  decide

/-- C17, amended: query-string and form-body decoding agree on plain text: for
every string `s` of 7-bit ASCII without the 0 byte and without `?`, the form
items of a URL-encoded POST with the body `s` are equal, entry by entry and in
the same order, to the query items of a GET or POST whose path is `/p?`
followed by `s`. -/
theorem form_and_query_decoding_agree (env : Collaborators)
    (formHeader queryHeader : THttpRequestHeader) (s address queryBody queryAddress : Bytes)
    (hpost : Qt.toLower formHeader.method = "post".toList)
    (hmp : Qt.startsWithCI (Qt.trimmed formHeader.contentType)
      "multipart/form-data".toList = false)
    (hjs : Qt.startsWithCI (Qt.trimmed formHeader.contentType)
      "application/json".toList = false)
    (hverb : Qt.toLower queryHeader.method = "get".toList
      ∨ Qt.toLower queryHeader.method = "post".toList)
    (hpath : queryHeader.path = "/p?".toList ++ s)
    (hq : '?' ∉ s) (hplain : Qt.isPlainAscii s = true) (hcodec : env.DecodesAscii) :
    (THttpRequest.create env formHeader s address).formItems
      = (THttpRequest.create env queryHeader queryBody queryAddress).queryItems := by
  have hpath2 : queryHeader.path = "/p".toList ++ '?' :: s := by rw [hpath]; rfl
  have hpieces : ∀ p ∈ Qt.split '&' s, Qt.isPlainAscii p = true :=
    fun p hp => Qt.isPlainAscii_of_mem_split '&' s p hp hplain
  rw [THttpRequest.create_formItems_loop env formHeader s address hpost hmp hjs,
    THttpRequest.create_queryItems_plain env queryHeader queryBody queryAddress "/p".toList s
      hpath2 (by decide) hq hcodec hplain,
    THttpRequest.queryLoop_eq_formLoop env _ hpieces]
  rcases hverb with h | h
  · rw [h, if_pos (Or.inr THttpRequest.value_get)]
  · rw [h, if_pos (Or.inl THttpRequest.value_post)]

/-- Witness of C17, amended: the body `a=1&&b=%20&=x&a=2` and the path
`/p?a=1&&b=%20&=x&a=2` give the same items. -/
theorem form_and_query_decoding_agree_witness :
    (THttpRequest.create sampleEnv
        (sampleHeader "POST".toList "/f".toList "application/x-www-form-urlencoded".toList)
        "a=1&&b=%20&=x&a=2".toList []).formItems
      = (THttpRequest.create sampleEnv
        (sampleHeader "GET".toList "/p?a=1&&b=%20&=x&a=2".toList []) [] []).queryItems :=
  form_and_query_decoding_agree sampleEnv
    (sampleHeader "POST".toList "/f".toList "application/x-www-form-urlencoded".toList)
    (sampleHeader "GET".toList "/p?a=1&&b=%20&=x&a=2".toList []) "a=1&&b=%20&=x&a=2".toList
    [] [] [] (by decide) (by decide) (by decide) (by decide) (by decide) (by decide)
    (by decide) sampleEnv_decodesAscii

namespace THttpRequest

theorem parseHeader_bytes (env : Collaborators) (hlocal : env.HeaderLocal) (m : Message)
    (tail : Bytes) (hm : m.HeadOk) :
    env.parseHeader (m.bytes ++ tail) = env.parseHeader (m.head ++ CRLFCRLF) := by
  have e : m.bytes ++ tail = m.head ++ CRLFCRLF ++ (m.body ++ tail) := by
    simp [Message.bytes]
  rw [e]
  exact hlocal m.head _ hm

/-- The loop walks over well-formed messages one iteration each, whatever
follows them in the buffer. -/
theorem generateLoop_prefix (env : Collaborators) (address : Bytes) (hlocal : env.HeaderLocal)
    (msgs : List Message) (hwf : ∀ m ∈ msgs, m.WellFormed env) :
    ∀ (pre tail : Bytes) (acc : List THttpRequest) (k : Nat),
      (pre ++ (Message.stream msgs ++ tail)).length < 2147483648 →
      generateLoop env (pre ++ (Message.stream msgs ++ tail)) address (msgs.length + k)
          pre.length acc
        = generateLoop env (pre ++ (Message.stream msgs ++ tail)) address k
            ((pre ++ Message.stream msgs).length : Nat)
            (acc ++ msgs.map (fun m => create env (env.parseHeader (m.head ++ CRLFCRLF))
              m.body address)) := by
  induction msgs with
  | nil =>
    intro pre tail acc k _
    simp [Message.stream]
  | cons m rest ih =>
    intro pre tail acc k hsize
    obtain ⟨hhead, hlen⟩ := hwf m (by simp)
    have hb : pre ++ (Message.stream (m :: rest) ++ tail)
        = pre ++ (m.bytes ++ (Message.stream rest ++ tail)) := by
      simp [Message.stream]
    have hfuel : (m :: rest).length + k = (rest.length + k) + 1 := by
      simp only [List.length_cons]
      omega
    rw [hb] at hsize ⊢
    rw [hfuel, generateLoop_step env address pre m (Message.stream rest ++ tail) acc
      (rest.length + k) hhead
      (by rw [parseHeader_bytes env hlocal m _ hhead]; exact hlen) hsize,
      parseHeader_bytes env hlocal m _ hhead]
    have hassoc : pre ++ (m.bytes ++ (Message.stream rest ++ tail))
        = (pre ++ m.bytes) ++ (Message.stream rest ++ tail) := by simp
    rw [hassoc] at hsize ⊢
    rw [ih (fun x hx => hwf x (by simp [hx])) (pre ++ m.bytes) tail _ k hsize]
    simp [Message.stream]

/-- The requests of a buffer of well-formed messages. -/
theorem generate_wellFormed (env : Collaborators) (address : Bytes) (hlocal : env.HeaderLocal)
    (msgs : List Message) (hwf : ∀ m ∈ msgs, m.WellFormed env) (fuel : Nat)
    (hsize : (Message.stream msgs).length < 2147483648) (hfuel : msgs.length < fuel) :
    generate env fuel (Message.stream msgs) address
      = some (msgs.map (fun m => create env (env.parseHeader (m.head ++ CRLFCRLF))
          m.body address)) := by
  obtain ⟨k, hk⟩ : ∃ k, fuel = msgs.length + (k + 1) := ⟨fuel - msgs.length - 1, by omega⟩
  have h := generateLoop_prefix env address hlocal msgs hwf [] [] [] (k + 1)
    (by simpa using hsize)
  simp only [List.nil_append, List.append_nil, List.length_nil, Nat.cast_zero] at h
  unfold generate
  rw [hk, h, generateLoop]
  simp [Qt.indexOf_at_end (Message.stream msgs) CRLFCRLF CRLFCRLF_ne_nil]

theorem method_of_unknown_token (r : THttpRequest)
    (h : Qt.toLower r.header.method ∉
      ["get".toList, "head".toList, "post".toList, "options".toList, "put".toList,
        "delete".toList, "trace".toList, "patch".toList]) :
    r.method = Tf.HttpMethod.Invalid := by
  have hc : MethodHash.contains (Qt.toLower r.header.method) = false := by
    rcases MethodHash.value_cases (Qt.toLower r.header.method) with
      c | c | c | c | c | c | c | c | c
    · exact absurd (by simp [c.1]) h
    · exact absurd (by simp [c.1]) h
    · exact absurd (by simp [c.1]) h
    · exact absurd (by simp [c.1]) h
    · exact absurd (by simp [c.1]) h
    · exact absurd (by simp [c.1]) h
    · exact absurd (by simp [c.1]) h
    · exact absurd (by simp [c.1]) h
    · exact c.2.1
  unfold method
  simp [hc]

end THttpRequest

/-! ## A last message with a body shorter than its content length -/

namespace Qt

theorem mid_rest (b : Bytes) (n : Nat) (len : Int) (h : n ≤ b.length)
    (hlen : len > (b.length : Int) - (n : Int)) : mid b n len = b.drop n := by
  unfold mid
  have h1 : ¬ ((n : Int) > (b.length : Int)) := by omega
  have h2 : ¬ ((n : Int) < 0) := by omega
  have h3 : len < 0 ∨ len > (b.length : Int) - (n : Int) := Or.inr hlen
  simp [h1, h2, h3]

theorem indexOf_past_end (b sep : Bytes) (frm : Int) (h : frm > (b.length : Int)) :
    indexOf b sep frm = -1 := by
  unfold indexOf
  simp [h]

end Qt

namespace THttpRequest

theorem generateLoop_truncated (env : Collaborators) (address pre : Bytes) (m : Message)
    (acc : List THttpRequest) (k : Nat) (hlocal : env.HeaderLocal) (hhead : m.HeadOk)
    (hlong : (m.body.length : Int) < (env.parseHeader (m.head ++ CRLFCRLF)).contentLength)
    (hno : ((pre.length + m.head.length + 4 : Nat) : Int)
      + (env.parseHeader (m.head ++ CRLFCRLF)).contentLength < 2147483648) :
    generateLoop env (pre ++ m.bytes) address (k + 2) pre.length acc
      = some (acc ++ [create env (env.parseHeader (m.head ++ CRLFCRLF)) m.body address]) := by
  have hb : pre ++ m.bytes = pre ++ (m.head ++ CRLFCRLF ++ m.body) := by
    simp [Message.bytes]
  have hidx : Qt.indexOf (pre ++ m.bytes) CRLFCRLF pre.length
      = ((pre.length + m.head.length : Nat) : Int) := by
    rw [hb]
    exact Qt.indexOf_first CRLFCRLF pre m.head m.body CRLFCRLF_ne_nil hhead.2
  have hpos : 0 < m.head.length := List.length_pos.2 hhead.1
  have htotal : (pre ++ m.bytes).length = pre.length + m.head.length + 4 + m.body.length := by
    simp only [Message.bytes, List.length_append, CRLFCRLF_length]
    omega
  have hmid : Qt.mid (pre ++ m.bytes) pre.length (-1) = m.bytes := by
    rw [Qt.mid_from _ _ (by simp)]
    simp
  have hparse : env.parseHeader m.bytes = env.parseHeader (m.head ++ CRLFCRLF) := by
    have := parseHeader_bytes env hlocal m [] hhead
    simpa using this
  have hbody : Qt.mid (pre ++ m.bytes)
      (((pre.length + m.head.length : Nat) : Int) + 4)
      (env.parseHeader (m.head ++ CRLFCRLF)).contentLength = m.body := by
    have e : (((pre.length + m.head.length : Nat) : Int) + 4)
        = ((pre.length + m.head.length + 4 : Nat) : Int) := by push_cast; ring
    rw [e, Qt.mid_rest _ _ _ (by rw [htotal]; omega) (by rw [htotal]; push_cast; omega)]
    have hsplit : pre ++ m.bytes = (pre ++ m.head ++ CRLFCRLF) ++ m.body := by
      simp [Message.bytes]
    have hl : (pre ++ m.head ++ CRLFCRLF).length = pre.length + m.head.length + 4 := by
      simp only [List.length_append, CRLFCRLF_length]
    rw [hsplit, ← hl, List.drop_left]
  have hnext : Qt.toInt32 (((pre.length + m.head.length : Nat) : Int) + 4
      + (env.parseHeader (m.head ++ CRLFCRLF)).contentLength)
      = ((pre.length + m.head.length : Nat) : Int) + 4
        + (env.parseHeader (m.head ++ CRLFCRLF)).contentLength := by
    apply Qt.toInt32_of_nonneg_lt
    · omega
    · push_cast at hno ⊢
      omega
  have hgt : ((pre.length + m.head.length : Nat) : Int) > 0 := by omega
  have hnz : ¬ ((env.parseHeader (m.head ++ CRLFCRLF)).contentLength ≤ 0) := by omega
  have hend : Qt.indexOf (pre ++ m.bytes) CRLFCRLF
      (((pre.length + m.head.length : Nat) : Int) + 4
        + (env.parseHeader (m.head ++ CRLFCRLF)).contentLength) = -1 := by
    apply Qt.indexOf_past_end
    rw [htotal]
    push_cast
    omega
  rw [generateLoop]
  simp only [hidx, hgt, if_true, hmid, hparse, hnz, if_false, hbody, hnext]
  rw [generateLoop]
  simp only [hend]
  rfl

end THttpRequest

/-! ## Malformed and truncated messages -/

/-- C11: a message with an unrecognised method token inside a buffer of
pipelined messages does not stop `generate`: there is one request per message,
the request of the bad message has the method `Invalid`, and the requests of
the messages around it are the ones obtained when a well-formed message stands
in its place. -/
theorem generate_isolates_bad_message (env : Collaborators) (address : Bytes)
    (before after : List Message) (bad good : Message) (fuel : Nat)
    (hlocal : env.HeaderLocal)
    (hbefore : ∀ m ∈ before, m.WellFormed env) (hafter : ∀ m ∈ after, m.WellFormed env)
    (hbad : bad.WellFormed env) (hgood : good.WellFormed env)
    (hunknown : Qt.toLower (env.parseHeader (bad.head ++ THttpRequest.CRLFCRLF)).method ∉
      ["get".toList, "head".toList, "post".toList, "options".toList, "put".toList,
        "delete".toList, "trace".toList, "patch".toList])
    (hsize : (Message.stream (before ++ bad :: after)).length < 2147483648)
    (hsize2 : (Message.stream (before ++ good :: after)).length < 2147483648)
    (hfuel : before.length + after.length + 1 < fuel) :
    THttpRequest.generate env fuel (Message.stream (before ++ bad :: after)) address
      = some (before.map (fun m => THttpRequest.create env
            (env.parseHeader (m.head ++ THttpRequest.CRLFCRLF)) m.body address)
          ++ THttpRequest.create env (env.parseHeader (bad.head ++ THttpRequest.CRLFCRLF))
              bad.body address
          :: after.map (fun m => THttpRequest.create env
            (env.parseHeader (m.head ++ THttpRequest.CRLFCRLF)) m.body address))
    ∧ (THttpRequest.create env (env.parseHeader (bad.head ++ THttpRequest.CRLFCRLF))
        bad.body address).method = Tf.HttpMethod.Invalid
    ∧ THttpRequest.generate env fuel (Message.stream (before ++ good :: after)) address
      = some (before.map (fun m => THttpRequest.create env
            (env.parseHeader (m.head ++ THttpRequest.CRLFCRLF)) m.body address)
          ++ THttpRequest.create env (env.parseHeader (good.head ++ THttpRequest.CRLFCRLF))
              good.body address
          :: after.map (fun m => THttpRequest.create env
            (env.parseHeader (m.head ++ THttpRequest.CRLFCRLF)) m.body address)) := by
  have hall : ∀ x : Message, x.WellFormed env → ∀ m ∈ before ++ x :: after,
      m.WellFormed env := by
    intro x hx m hm
    rcases List.mem_append.1 hm with h | h
    · exact hbefore m h
    · rcases List.mem_cons.1 h with h | h
      · rw [h]; exact hx
      · exact hafter m h
  have hlen : ∀ x : Message, (before ++ x :: after).length < fuel := by
    intro x
    simp only [List.length_append, List.length_cons]
    omega
  refine ⟨?_, ?_, ?_⟩
  · rw [THttpRequest.generate_wellFormed env address hlocal _ (hall bad hbad) fuel hsize
      (hlen bad)]
    simp
  · apply THttpRequest.method_of_unknown_token
    rw [THttpRequest.create_header]
    exact hunknown
  · rw [THttpRequest.generate_wellFormed env address hlocal _ (hall good hgood) fuel hsize2
      (hlen good)]
    simp

/-- Witness of C11: `BOGUS /b H` between two GET messages gives an `Invalid`
request. -/
theorem generate_isolates_bad_message_witness :
    (THttpRequest.create sampleEnv
        (sampleEnv.parseHeader ("BOGUS /b H".toList ++ THttpRequest.CRLFCRLF)) [] []).method
      = Tf.HttpMethod.Invalid :=
  (generate_isolates_bad_message sampleEnv [] [Message.mk "GET /a H\r\nL:xx".toList "12".toList]
    [Message.mk "GET /c H".toList []] (Message.mk "BOGUS /b H".toList [])
    (Message.mk "GET /b H".toList []) 4 sampleEnv_headerLocal
    (by decide) (by decide) (by decide) (by decide) (by decide) (by decide) (by decide)
    (by decide)).2.1

/-- C13: when the last header of a buffer declares a content length larger
than the number of bytes that follow its CRLFCRLF, `generate` still emits a
request for that message, its body being exactly the bytes that are there, and
emits nothing after it.  The sum `headidx + contlen` is assumed to fit an
`int`. -/
theorem generate_truncated_last_body (env : Collaborators) (address : Bytes)
    (msgs : List Message) (last : Message) (fuel : Nat) (hlocal : env.HeaderLocal)
    (hwf : ∀ m ∈ msgs, m.WellFormed env) (hhead : last.HeadOk)
    (hlong : (last.body.length : Int)
      < (env.parseHeader (last.head ++ THttpRequest.CRLFCRLF)).contentLength)
    (hno : (((Message.stream msgs).length + last.head.length + 4 : Nat) : Int)
      + (env.parseHeader (last.head ++ THttpRequest.CRLFCRLF)).contentLength < 2147483648)
    (hfuel : msgs.length + 1 < fuel) :
    THttpRequest.generate env fuel (Message.stream msgs ++ last.bytes) address
      = some (msgs.map (fun m => THttpRequest.create env
            (env.parseHeader (m.head ++ THttpRequest.CRLFCRLF)) m.body address)
          ++ [THttpRequest.create env (env.parseHeader (last.head ++ THttpRequest.CRLFCRLF))
              last.body address]) := by
  obtain ⟨k, hk⟩ : ∃ k, fuel = msgs.length + (k + 2) := ⟨fuel - msgs.length - 2, by omega⟩
  have htotal : (Message.stream msgs ++ last.bytes).length
      = (Message.stream msgs).length + last.head.length + 4 + last.body.length := by
    simp only [Message.bytes, List.length_append, THttpRequest.CRLFCRLF_length]
    omega
  have hsize : (Message.stream msgs ++ last.bytes).length < 2147483648 := by
    rw [htotal]
    push_cast at hno
    omega
  have h := THttpRequest.generateLoop_prefix env address hlocal msgs hwf [] last.bytes []
    (k + 2) (by simpa using hsize)
  simp only [List.nil_append, List.length_nil, Nat.cast_zero] at h
  unfold THttpRequest.generate
  rw [hk, h]
  exact THttpRequest.generateLoop_truncated env address (Message.stream msgs) last _ k hlocal
    hhead hlong hno

/-- Witness of C13: the header announces four body bytes and two are there. -/
theorem generate_truncated_last_body_witness :
    THttpRequest.generate sampleEnv 3
        (Message.stream [Message.mk "GET /a H".toList []]
          ++ (Message.mk "POST /b H\r\nL:xxxx".toList "12".toList).bytes) []
      = some ([Message.mk "GET /a H".toList []].map (fun m => THttpRequest.create sampleEnv
            (sampleEnv.parseHeader (m.head ++ THttpRequest.CRLFCRLF)) m.body [])
          ++ [THttpRequest.create sampleEnv
              (sampleEnv.parseHeader ("POST /b H\r\nL:xxxx".toList ++ THttpRequest.CRLFCRLF))
              "12".toList []]) :=
  generate_truncated_last_body sampleEnv [] [Message.mk "GET /a H".toList []]
    (Message.mk "POST /b H\r\nL:xxxx".toList "12".toList) 3 sampleEnv_headerLocal
    (by decide) (by decide) (by decide) (by decide) (by decide)

/-! ## Content lengths below zero -/

/-- C14 fails on the code for a negative content length: for the one-message
buffer `GET /a H`, `L:-19`, CRLFCRLF, whose header gives `contlen = -19`, the
request gets an empty body but the loop continues at offset
`headidx + contlen = 19 - 19 = 0`, not at offset 19 after the separator; the
same message is found again on every iteration and `generate` never returns. -/
theorem generate_negative_content_length_rescans :
    (sampleEnvSigned.parseHeader "GET /a H\r\nL:-19\r\n\r\n".toList).contentLength = -19
    ∧ (∀ (fuel : Nat) (reqList : List THttpRequest),
        THttpRequest.generateLoop sampleEnvSigned "GET /a H\r\nL:-19\r\n\r\n".toList []
            (fuel + 1) 0 reqList
          = THttpRequest.generateLoop sampleEnvSigned "GET /a H\r\nL:-19\r\n\r\n".toList []
              fuel 0
              (reqList ++ [THttpRequest.create sampleEnvSigned
                (sampleEnvSigned.parseHeader "GET /a H\r\nL:-19\r\n\r\n".toList) [] []]))
    ∧ (∀ fuel : Nat,
        THttpRequest.generate sampleEnvSigned fuel "GET /a H\r\nL:-19\r\n\r\n".toList []
          = none) := by
  have hidx : Qt.indexOf "GET /a H\r\nL:-19\r\n\r\n".toList THttpRequest.CRLFCRLF 0 = 15 := by
    decide
  have hmid : Qt.mid "GET /a H\r\nL:-19\r\n\r\n".toList 0 (-1)
      = "GET /a H\r\nL:-19\r\n\r\n".toList := by decide
  have hlen : (sampleEnvSigned.parseHeader "GET /a H\r\nL:-19\r\n\r\n".toList).contentLength
      = -19 := by decide
  have hnext : Qt.toInt32 (15 + 4 + -19) = 0 := by decide
  have hstep : ∀ (fuel : Nat) (reqList : List THttpRequest),
      THttpRequest.generateLoop sampleEnvSigned "GET /a H\r\nL:-19\r\n\r\n".toList []
          (fuel + 1) 0 reqList
        = THttpRequest.generateLoop sampleEnvSigned "GET /a H\r\nL:-19\r\n\r\n".toList []
            fuel 0
            (reqList ++ [THttpRequest.create sampleEnvSigned
              (sampleEnvSigned.parseHeader "GET /a H\r\nL:-19\r\n\r\n".toList) [] []]) := by
    intro fuel reqList
    rw [THttpRequest.generateLoop]
    simp only [hidx, hmid, hlen, hnext]
    rfl
  refine ⟨hlen, hstep, ?_⟩
  intro fuel
  unfold THttpRequest.generate
  generalize ([] : List THttpRequest) = reqList
  induction fuel generalizing reqList with
  | zero => rfl
  | succ n ih => rw [hstep, ih]

/-! ## Termination of the loop of `generate` -/

namespace Qt

theorem findFrom_bounds (sep l : Bytes) (i n : Nat) (h : findFrom sep l i = some n) :
    i ≤ n ∧ n + sep.length ≤ i + l.length ∧ sep.isPrefixOf (l.drop (n - i)) = true := by
  induction l generalizing i with
  | nil => simp [findFrom] at h
  | cons c cs ih =>
    rw [findFrom] at h
    by_cases hp : sep.isPrefixOf (c :: cs) = true
    · simp only [hp, if_true, Option.some.injEq] at h
      subst h
      have hle : sep.length ≤ (c :: cs).length :=
        (List.isPrefixOf_iff_prefix.1 hp).length_le
      refine ⟨le_refl _, by omega, ?_⟩
      simpa using hp
    · simp only [hp, Bool.false_eq_true, if_false] at h
      obtain ⟨h1, h2, h3⟩ := ih (i + 1) h
      refine ⟨by omega, by simp only [List.length_cons]; omega, ?_⟩
      have e : n - i = (n - (i + 1)) + 1 := by omega
      rw [e, List.drop_succ_cons]
      exact h3

theorem indexOf_bounds (b sep : Bytes) (frm : Nat) (h : indexOf b sep frm > 0) :
    (frm : Int) ≤ indexOf b sep frm
    ∧ indexOf b sep frm + (sep.length : Int) ≤ (b.length : Int)
    ∧ sep.isPrefixOf (b.drop (indexOf b sep frm).toNat) = true := by
  unfold indexOf at h ⊢
  by_cases h1 : (frm : Int) > (b.length : Int) ∨ (sep.length : Int) + (frm : Int)
      > (b.length : Int)
  · rw [if_pos h1] at h
    exact absurd h (by decide)
  · have h2 : ¬ ((frm : Int) < 0) := by omega
    rw [if_neg h1] at h ⊢
    simp only [h2, if_false, Int.toNat_ofNat] at h ⊢
    cases hf : findFrom sep (b.drop frm) frm with
    | none =>
      rw [hf] at h
      exact absurd h (by decide)
    | some n =>
      rw [hf] at h
      obtain ⟨a1, a2, a3⟩ := findFrom_bounds sep (b.drop frm) frm n hf
      have hlen : (b.drop frm).length = b.length - frm := List.length_drop frm b
      have hfrm : frm ≤ b.length := by omega
      simp only [Int.toNat_ofNat]
      refine ⟨by omega, by omega, ?_⟩
      rw [List.drop_drop] at a3
      have e : frm + (n - frm) = n := by omega
      rw [e] at a3
      exact a3

end Qt

namespace THttpRequest

/-- With content lengths that are not negative and do not overflow, the loop
started at offset `frm` ends within `(length - frm) / 4` iterations. -/
theorem generateLoop_terminates (env : Collaborators) (address byteArray : Bytes)
    (hnn : ∀ k : Nat, k ≤ byteArray.length →
      0 ≤ (env.parseHeader (Qt.mid byteArray k (-1))).contentLength)
    (hov : ∀ k : Nat, k ≤ byteArray.length →
      Qt.indexOf byteArray CRLFCRLF k + 4
        + (env.parseHeader (Qt.mid byteArray k (-1))).contentLength < 2147483648) :
    ∀ (fuel frm : Nat) (reqList : List THttpRequest),
      (byteArray.length - frm) / 4 < fuel →
      ∃ reqs, generateLoop env byteArray address fuel frm reqList = some reqs
        ∧ reqs.length ≤ reqList.length + (byteArray.length - frm) / 4 := by
  intro fuel
  induction fuel with
  | zero => intro frm reqList h; omega
  | succ f ih =>
    intro frm reqList hfuel
    by_cases hi : Qt.indexOf byteArray CRLFCRLF frm > 0
    · obtain ⟨b1, b2, _⟩ := Qt.indexOf_bounds byteArray CRLFCRLF frm hi
      rw [CRLFCRLF_length] at b2
      have hle : frm ≤ byteArray.length := by omega
      have c0 := hnn frm hle
      have c1 := hov frm hle
      obtain ⟨next, hnext⟩ : ∃ next : Nat, (next : Int)
          = Qt.indexOf byteArray CRLFCRLF frm + 4
            + (env.parseHeader (Qt.mid byteArray frm (-1))).contentLength :=
        ⟨(Qt.indexOf byteArray CRLFCRLF frm + 4
            + (env.parseHeader (Qt.mid byteArray frm (-1))).contentLength).toNat,
          Int.toNat_of_nonneg (by omega)⟩
      have hwrap : Qt.toInt32 (Qt.indexOf byteArray CRLFCRLF frm + 4
          + (env.parseHeader (Qt.mid byteArray frm (-1))).contentLength) = (next : Int) := by
        rw [Qt.toInt32_of_nonneg_lt _ (by omega) c1, hnext]
      rw [generateLoop]
      simp only [hi, if_true, hwrap]
      have hmeasure : (byteArray.length - next) / 4 < f := by omega
      obtain ⟨reqs, hr1, hr2⟩ := ih next
        (if (env.parseHeader (Qt.mid byteArray frm (-1))).contentLength ≤ 0 then
          reqList ++ [create env (env.parseHeader (Qt.mid byteArray frm (-1))) [] address]
        else
          reqList ++ [create env (env.parseHeader (Qt.mid byteArray frm (-1)))
            (Qt.mid byteArray (Qt.indexOf byteArray CRLFCRLF frm + 4)
              (env.parseHeader (Qt.mid byteArray frm (-1))).contentLength) address])
        hmeasure
      refine ⟨reqs, hr1, ?_⟩
      have hlen : (if (env.parseHeader (Qt.mid byteArray frm (-1))).contentLength ≤ 0 then
          reqList ++ [create env (env.parseHeader (Qt.mid byteArray frm (-1))) [] address]
        else
          reqList ++ [create env (env.parseHeader (Qt.mid byteArray frm (-1)))
            (Qt.mid byteArray (Qt.indexOf byteArray CRLFCRLF frm + 4)
              (env.parseHeader (Qt.mid byteArray frm (-1))).contentLength) address]).length
          = reqList.length + 1 := by
        split_ifs <;> simp
      rw [hlen] at hr2
      omega
    · rw [generateLoop]
      simp only [hi, if_false]
      exact ⟨reqList, rfl, by omega⟩

theorem generate_of_no_separator (env : Collaborators) (address byteArray : Bytes) (fuel : Nat)
    (hfuel : 0 < fuel) (h : Qt.indexOf byteArray CRLFCRLF 0 ≤ 0) :
    generate env fuel byteArray address = some [] := by
  obtain ⟨f, rfl⟩ : ∃ f, fuel = f + 1 := ⟨fuel - 1, by omega⟩
  unfold generate
  rw [generateLoop]
  have h2 : ¬ (Qt.indexOf byteArray CRLFCRLF 0 > 0) := by omega
  simp only [h2, if_false]

end THttpRequest

/-- C15: when every parsed content length is non-negative and
`headidx + contlen` stays below 2^31, the offset `from` grows by at least 4 on
every iteration of the loop of `generate`, so `generate` returns, with at most
`length / 4` requests; a buffer without CRLFCRLF at an index above 0, the empty
buffer and a buffer that starts with CRLFCRLF give the empty list. -/
theorem generate_terminates (env : Collaborators) (address byteArray : Bytes) (fuel : Nat)
    (hnn : ∀ k : Nat, k ≤ byteArray.length →
      0 ≤ (env.parseHeader (Qt.mid byteArray k (-1))).contentLength)
    (hov : ∀ k : Nat, k ≤ byteArray.length →
      Qt.indexOf byteArray THttpRequest.CRLFCRLF k + 4
        + (env.parseHeader (Qt.mid byteArray k (-1))).contentLength < 2147483648)
    (hfuel : byteArray.length / 4 < fuel) :
    (∀ frm : Nat, Qt.indexOf byteArray THttpRequest.CRLFCRLF frm > 0 →
      (frm : Int) + 4 ≤ Qt.toInt32 (Qt.indexOf byteArray THttpRequest.CRLFCRLF frm + 4
        + (env.parseHeader (Qt.mid byteArray frm (-1))).contentLength))
    ∧ (∃ reqs, THttpRequest.generate env fuel byteArray address = some reqs
        ∧ reqs.length ≤ byteArray.length / 4)
    ∧ ((∀ i : Nat, 0 < i → THttpRequest.CRLFCRLF.isPrefixOf (byteArray.drop i) = false) →
        THttpRequest.generate env fuel byteArray address = some [])
    ∧ THttpRequest.generate env fuel [] address = some []
    ∧ (∀ rest : Bytes,
        THttpRequest.generate env fuel (THttpRequest.CRLFCRLF ++ rest) address = some []) := by
  have hpos : 0 < fuel := by omega
  refine ⟨?_, ?_, ?_, ?_, ?_⟩
  · intro frm hi
    obtain ⟨b1, b2, _⟩ := Qt.indexOf_bounds byteArray THttpRequest.CRLFCRLF frm hi
    rw [THttpRequest.CRLFCRLF_length] at b2
    have hle : frm ≤ byteArray.length := by omega
    have c0 := hnn frm hle
    have c1 := hov frm hle
    rw [Qt.toInt32_of_nonneg_lt _ (by omega) c1]
    omega
  · obtain ⟨reqs, h1, h2⟩ := THttpRequest.generateLoop_terminates env address byteArray hnn hov
      fuel 0 [] (by simpa using hfuel)
    refine ⟨reqs, ?_, ?_⟩
    · unfold THttpRequest.generate
      simpa using h1
    · simpa using h2
  · intro hnone
    apply THttpRequest.generate_of_no_separator env address byteArray fuel hpos
    by_contra hc
    have hi : Qt.indexOf byteArray THttpRequest.CRLFCRLF ((0 : Nat) : Int) > 0 := by
      simp only [Nat.cast_zero]
      omega
    obtain ⟨_, _, b3⟩ := Qt.indexOf_bounds byteArray THttpRequest.CRLFCRLF 0 hi
    have hn := hnone (Qt.indexOf byteArray THttpRequest.CRLFCRLF ((0 : Nat) : Int)).toNat
      (by omega)
    rw [hn] at b3
    exact Bool.false_ne_true b3
  · exact THttpRequest.generate_of_no_separator env address [] fuel hpos (by decide)
  · intro rest
    apply THttpRequest.generate_of_no_separator env address _ fuel hpos
    have h0 : Qt.indexOf ([] ++ THttpRequest.CRLFCRLF) THttpRequest.CRLFCRLF 0
        = (([] : Bytes).length : Int) := by decide
    have h := Qt.indexOf_first THttpRequest.CRLFCRLF [] [] rest THttpRequest.CRLFCRLF_ne_nil h0
    simp only [List.nil_append, List.length_nil, Nat.cast_zero, add_zero] at h
    rw [h]

/-- Witness of C15: a buffer of 34 bytes with two messages gives at most 8
requests. -/
theorem generate_terminates_witness :
    ∃ reqs, THttpRequest.generate sampleEnv 9
        "GET /a H\r\nL:xx\r\n\r\n12GET /b H\r\n\r\n".toList [] = some reqs
      ∧ reqs.length ≤ "GET /a H\r\nL:xx\r\n\r\n12GET /b H\r\n\r\n".toList.length / 4 :=
  (generate_terminates sampleEnv [] "GET /a H\r\nL:xx\r\n\r\n12GET /b H\r\n\r\n".toList 9
    (by decide) (by decide) (by decide)).2.1

/-! ## The connection pool -/

namespace TSqlDatabasePool

theorem filter_filter_length_le (l : List PooledConnection) (p q : PooledConnection → Bool) :
    ((l.filter p).filter q).length ≤ (l.filter q).length :=
  List.Sublist.length_le ((List.filter_sublist l).filter q)

theorem filter_filter_length_lt (l : List PooledConnection) (p q : PooledConnection → Bool)
    (c : PooledConnection) (hc : c ∈ l) (hq : q c = true) (hp : p c = false) :
    ((l.filter p).filter q).length < (l.filter q).length := by
  induction l with
  | nil => simp at hc
  | cons x rest ih =>
    rcases List.mem_cons.1 hc with h | h
    · subst h
      have h1 := filter_filter_length_le rest p q
      simp only [List.filter_cons, hp, hq, Bool.false_eq_true, if_false, if_true,
        List.length_cons]
      omega
    · have h1 := ih h
      cases hpx : p x <;> cases hqx : q x <;>
        simp only [List.filter_cons, hpx, hqx, if_true, if_false, Bool.false_eq_true,
          List.length_cons] <;> omega

theorem invariant_init (maxConnectionsPerProcess : Nat) :
    Invariant maxConnectionsPerProcess init := by
  refine ⟨?_, ?_, ?_, ?_, ?_, ?_⟩ <;> simp [init, liveCount]

theorem invariant_sweep (maxConnectionsPerProcess maxIdle : Nat) (s : PoolState) (now : Nat)
    (h : Invariant maxConnectionsPerProcess s) :
    Invariant maxConnectionsPerProcess (sweep maxIdle s now) := by
  obtain ⟨h1, h2, h3, h4, h5, h6⟩ := h
  refine ⟨?_, ?_, h3, ?_, ?_, h6⟩
  · intro databaseId
    have := h1 databaseId
    have hle := filter_filter_length_le s.idle (fun c => now - c.lastReleasedAt ≤ maxIdle)
      (fun c => c.databaseId = databaseId)
    simp only [liveCount, sweep] at this ⊢
    omega
  · exact h2.sublist ((List.filter_sublist s.idle).map _)
  · intro c hc d hd
    exact h4 c (List.mem_of_mem_filter hc) d hd
  · intro c hc
    exact h5 c (List.mem_of_mem_filter hc)

theorem invariant_pop (maxConnectionsPerProcess : Nat) (s : PoolState) (databaseId : Nat)
    (h : Invariant maxConnectionsPerProcess s) :
    Invariant maxConnectionsPerProcess (pop maxConnectionsPerProcess s databaseId).2 := by
  obtain ⟨h1, h2, h3, h4, h5, h6⟩ := h
  unfold pop
  cases hf : s.idle.find? (fun c => c.databaseId = databaseId) with
  | some c =>
    have hc : c ∈ s.idle := List.mem_of_find?_eq_some hf
    simp only []
    refine ⟨?_, ?_, ?_, ?_, ?_, ?_⟩
    · intro id
      have hb := h1 id
      simp only [liveCount] at hb ⊢
      by_cases e : c.databaseId = id
      · have hlt := filter_filter_length_lt s.idle (fun d => d.handle ≠ c.handle)
          (fun d => d.databaseId = id) c hc (by simp [e]) (by simp)
        simp only [List.filter_cons, e, decide_True, if_true, List.length_cons]
        omega
      · have hle := filter_filter_length_le s.idle (fun d => d.handle ≠ c.handle)
          (fun d => d.databaseId = id)
        simp only [List.filter_cons, e, decide_False, Bool.false_eq_true, if_false]
        omega
    · exact h2.sublist ((List.filter_sublist s.idle).map _)
    · rw [List.map_cons, List.nodup_cons]
      refine ⟨?_, h3⟩
      intro hmem
      obtain ⟨d, hd, hd2⟩ := List.mem_map.1 hmem
      exact h4 c hc d hd hd2.symm
    · intro x hx d hd
      have hx1 : x ∈ s.idle := List.mem_of_mem_filter hx
      have hx2 : x.handle ≠ c.handle := by simpa using (List.mem_filter.1 hx).2
      rcases List.mem_cons.1 hd with hd | hd
      · rw [hd]; exact hx2
      · exact h4 x hx1 d hd
    · intro x hx
      exact h5 x (List.mem_of_mem_filter hx)
    · intro d hd
      rcases List.mem_cons.1 hd with hd | hd
      · rw [hd]; exact h5 c hc
      · exact h6 d hd
  | none =>
    simp only []
    by_cases hlt : liveCount s databaseId < maxConnectionsPerProcess
    · simp only [hlt, if_true]
      refine ⟨?_, h2, ?_, ?_, ?_, ?_⟩
      · intro id
        have hb := h1 id
        simp only [liveCount] at hb hlt ⊢
        by_cases e : databaseId = id
        · subst e
          simp only [List.filter_cons, decide_True, if_true, List.length_cons]
          omega
        · simp only [List.filter_cons, e, decide_False, Bool.false_eq_true, if_false]
          exact hb
      · rw [List.map_cons, List.nodup_cons]
        refine ⟨?_, h3⟩
        intro hmem
        obtain ⟨d, hd, hd2⟩ := List.mem_map.1 hmem
        have := h6 d hd
        simp only at hd2
        omega
      · intro x hx d hd
        rcases List.mem_cons.1 hd with hd | hd
        · rw [hd]
          have := h5 x hx
          simp only
          omega
        · exact h4 x hx d hd
      · intro x hx
        have := h5 x hx
        simp only
        omega
      · intro d hd
        rcases List.mem_cons.1 hd with hd | hd
        · rw [hd]
          simp only
          omega
        · have := h6 d hd
          simp only
          omega
    · simp only [hlt, if_false]
      exact ⟨h1, h2, h3, h4, h5, h6⟩

theorem invariant_push (maxConnectionsPerProcess : Nat) (s : PoolState) (handle : Nat)
    (broken : Bool) (now : Nat) (h : Invariant maxConnectionsPerProcess s) :
    Invariant maxConnectionsPerProcess (push s handle broken now) := by
  obtain ⟨h1, h2, h3, h4, h5, h6⟩ := h
  unfold push
  cases hf : s.inUse.find? (fun c => c.handle = handle) with
  | none => exact ⟨h1, h2, h3, h4, h5, h6⟩
  | some c =>
    have hc : c ∈ s.inUse := List.mem_of_find?_eq_some hf
    have hch : c.handle = handle := by simpa using List.find?_some hf
    simp only []
    have hsub : (s.inUse.filter (fun d => d.handle ≠ handle)).map PooledConnection.handle
        |>.Nodup := h3.sublist ((List.filter_sublist s.inUse).map _)
    cases broken with
    | true =>
      simp only [if_true]
      refine ⟨?_, h2, hsub, ?_, h5, ?_⟩
      · intro id
        have hb := h1 id
        have hle := filter_filter_length_le s.inUse (fun d => d.handle ≠ handle)
          (fun d => d.databaseId = id)
        simp only [liveCount] at hb ⊢
        omega
      · intro x hx d hd
        exact h4 x hx d (List.mem_of_mem_filter hd)
      · intro d hd
        exact h6 d (List.mem_of_mem_filter hd)
    | false =>
      simp only [Bool.false_eq_true, if_false]
      refine ⟨?_, ?_, hsub, ?_, ?_, ?_⟩
      · intro id
        have hb := h1 id
        simp only [liveCount] at hb ⊢
        by_cases e : c.databaseId = id
        · have hlt := filter_filter_length_lt s.inUse (fun d => d.handle ≠ handle)
            (fun d => d.databaseId = id) c hc (by simp [e]) (by simp [hch])
          simp only [List.filter_cons, e, decide_True, if_true, List.length_cons]
          omega
        · have hle := filter_filter_length_le s.inUse (fun d => d.handle ≠ handle)
            (fun d => d.databaseId = id)
          simp only [List.filter_cons, e, decide_False, Bool.false_eq_true, if_false]
          omega
      · rw [List.map_cons, List.nodup_cons]
        refine ⟨?_, h2⟩
        intro hmem
        obtain ⟨x, hx, hx2⟩ := List.mem_map.1 hmem
        exact h4 x hx c hc hx2
      · intro x hx d hd
        have hd1 : d ∈ s.inUse := List.mem_of_mem_filter hd
        have hd2 : d.handle ≠ handle := by simpa using (List.mem_filter.1 hd).2
        rcases List.mem_cons.1 hx with hx | hx
        · rw [hx]
          simp only
          rw [hch]
          exact fun e => hd2 e.symm
        · exact h4 x hx d hd1
      · intro x hx
        rcases List.mem_cons.1 hx with hx | hx
        · rw [hx]; exact h6 c hc
        · exact h5 x hx
      · intro d hd
        exact h6 d (List.mem_of_mem_filter hd)

theorem invariant_step (maxConnectionsPerProcess maxIdle : Nat) (s : PoolState) (op : Op)
    (h : Invariant maxConnectionsPerProcess s) :
    Invariant maxConnectionsPerProcess (step maxConnectionsPerProcess maxIdle s op) := by
  cases op with
  | pop databaseId => exact invariant_pop maxConnectionsPerProcess s databaseId h
  | push handle broken now => exact invariant_push maxConnectionsPerProcess s handle broken now h
  | sweep now => exact invariant_sweep maxConnectionsPerProcess maxIdle s now h

theorem invariant_foldl (maxConnectionsPerProcess maxIdle : Nat) (ops : List Op) :
    ∀ s, Invariant maxConnectionsPerProcess s →
      Invariant maxConnectionsPerProcess
        (ops.foldl (step maxConnectionsPerProcess maxIdle) s) := by
  induction ops with
  | nil => intro s h; exact h
  | cons op rest ih =>
    intro s h
    exact ih _ (invariant_step maxConnectionsPerProcess maxIdle s op h)

theorem invariant_run (maxConnectionsPerProcess maxIdle : Nat) (ops : List Op) :
    Invariant maxConnectionsPerProcess (run maxConnectionsPerProcess maxIdle ops) :=
  invariant_foldl maxConnectionsPerProcess maxIdle ops init
    (invariant_init maxConnectionsPerProcess)

theorem pop_result (maxConnectionsPerProcess : Nat) (s : PoolState) (databaseId : Nat)
    (c : PooledConnection) (h : Invariant maxConnectionsPerProcess s)
    (hp : (pop maxConnectionsPerProcess s databaseId).1 = some c) :
    c.databaseId = databaseId ∧ c.handle ∉ s.inUse.map PooledConnection.handle
      ∧ c ∈ (pop maxConnectionsPerProcess s databaseId).2.inUse := by
  obtain ⟨_, _, _, h4, _, h6⟩ := h
  unfold pop at hp ⊢
  cases hf : s.idle.find? (fun c => c.databaseId = databaseId) with
  | some x =>
    rw [hf] at hp
    simp only [Option.some.injEq] at hp
    subst hp
    have hx : x ∈ s.idle := List.mem_of_find?_eq_some hf
    have hid : x.databaseId = databaseId := by simpa using List.find?_some hf
    refine ⟨hid, ?_, by simp⟩
    intro hmem
    obtain ⟨d, hd, hd2⟩ := List.mem_map.1 hmem
    exact h4 x hx d hd hd2.symm
  | none =>
    rw [hf] at hp
    simp only at hp ⊢
    by_cases hlt : liveCount s databaseId < maxConnectionsPerProcess
    · simp only [hlt, if_true, Option.some.injEq] at hp ⊢
      subst hp
      refine ⟨rfl, ?_, by simp⟩
      intro hmem
      obtain ⟨d, hd, hd2⟩ := List.mem_map.1 hmem
      have := h6 d hd
      simp only at hd2
      omega
    · simp [hlt] at hp

end TSqlDatabasePool

/-- C12: in every state the pool reaches from its empty start by `pop`, `push`
and sweep operations, every database id has at most `maxConnectionsPerProcess`
live connections (idle plus checked out), no connection is live twice, and the
connection that a `pop` hands out belongs to the requested database id and is
not among the connections that are checked out and not yet pushed back. -/
theorem pool_bounded_and_exclusive (maxConnectionsPerProcess maxIdle : Nat)
    (ops : List TSqlDatabasePool.Op) :
    (∀ databaseId,
      TSqlDatabasePool.liveCount (TSqlDatabasePool.run maxConnectionsPerProcess maxIdle ops)
        databaseId ≤ maxConnectionsPerProcess)
    ∧ (TSqlDatabasePool.liveHandles
        (TSqlDatabasePool.run maxConnectionsPerProcess maxIdle ops)).Nodup
    ∧ (∀ databaseId c,
        (TSqlDatabasePool.pop maxConnectionsPerProcess
          (TSqlDatabasePool.run maxConnectionsPerProcess maxIdle ops) databaseId).1 = some c →
        c.databaseId = databaseId
        ∧ c.handle ∉ (TSqlDatabasePool.run maxConnectionsPerProcess maxIdle ops).inUse.map
            TSqlDatabasePool.PooledConnection.handle
        ∧ c ∈ (TSqlDatabasePool.pop maxConnectionsPerProcess
            (TSqlDatabasePool.run maxConnectionsPerProcess maxIdle ops) databaseId).2.inUse) := by
  have hinv := TSqlDatabasePool.invariant_run maxConnectionsPerProcess maxIdle ops
  refine ⟨hinv.1, ?_, ?_⟩
  · obtain ⟨_, h2, h3, h4, _, _⟩ := hinv
    unfold TSqlDatabasePool.liveHandles
    rw [List.map_append, List.nodup_append]
    refine ⟨h2, h3, ?_⟩
    intro a ha hb
    obtain ⟨x, hx, hx2⟩ := List.mem_map.1 ha
    obtain ⟨d, hd, hd2⟩ := List.mem_map.1 hb
    exact h4 x hx d hd (hx2.trans hd2.symm)
  · intro databaseId c hp
    exact TSqlDatabasePool.pop_result maxConnectionsPerProcess _ databaseId c hinv hp
